import Mathlib

/-!
Shallow embedding of the Sudoku generation core (`src/utils/sudokuGenerator.ts`)
of the kids-sudoku-generator repository, together with proofs and refutations of
the specification claims.

Modelling conventions:

* JavaScript `Math.floor(Math.random() * k)` calls are modelled by consuming the
  head of a list of natural numbers (default `0` once the list is exhausted) and
  reducing it modulo `k`.  Every JS execution corresponds to some such list, and
  every list corresponds to a JS execution, so quantifying over all lists is
  quantifying over all sequences of random choices.
* JS arrays of numbers are modelled as `List Nat`; the `N×N` grid is modelled as
  a total function `Nat → Nat → Nat` (all source accesses are in bounds).
  In-place mutation becomes explicit state passing.
* JS doubles are modelled by exact rationals.  Every priority value produced by
  `getCellPriority` is an integer multiple of 1/2 and every such value is
  exactly representable as a double, so the orders coincide.  The twelve
  reachable values of `Math.floor(totalCells * (1 - percentages[difficulty]))`
  were checked to coincide with the exact rational floors.
* `Array.prototype.sort` is stable (ES2019); it is modelled by insertion sort,
  which is stable for the reflexive comparators used here.
* Thrown errors are modelled with `Except`.
-/

namespace SudokuGen

/-- A sequence of random choices: `Math.floor(Math.random() * k)` consumes the
head (default 0) modulo `k`. -/
abbrev Rng := List Nat

/-- One draw of `Math.floor(Math.random() * k)`. -/
def randNat (rng : Rng) (k : Nat) : Nat × Rng :=
  (rng.headD 0 % k, rng.tail)

/-- Swap the entries at positions `i` and `j` of a list
(the effect of `[arr[i], arr[j]] = [arr[j], arr[i]]`). -/
def listSwap (l : List α) (i j : Nat) : List α :=
  match l.get? i, l.get? j with
  | some a, some b => (l.set i b).set j a
  | _, _ => l

/-- The Fisher–Yates loop of `shuffleArray`, running the index `i` of
`for (let i = arr.length - 1; i > 0; i--)` down to 0: in the pattern `i+1`
below, the JS loop variable is `i+1` and the draw is modulo `i+2`. -/
def fyLoop : List α → Nat → Rng → List α × Rng
  | arr, 0, rng => (arr, rng)
  | arr, i+1, rng =>
    let (j, rng1) := randNat rng (i+2)
    fyLoop (listSwap arr (i+1) j) i rng1

/-- `shuffleArray`.  The source first copies (`const arr = [...array]`) and all
subsequent writes target the copy, so the argument array is left untouched; the
result carries both the returned array and the (unchanged) contents of the
argument array after the call, making the absence of mutation explicit. -/
def shuffleArray (array : List α) (rng : Rng) : (List α × List α) × Rng :=
  let (res, rng1) := fyLoop array (array.length - 1) rng
  ((res, array), rng1)

/-- The errors the generator can throw. -/
inductive SudokuError where
  | unsupportedSize
  | generationFailure
  deriving DecidableEq, Repr

/-- `VALID_SIZES`. -/
def VALID_SIZES : List Nat := [4, 6, 9]

/-- `isValidSize`. -/
def isValidSize (size : Nat) : Bool :=
  VALID_SIZES.any (fun validSize => validSize == size)

/-- `assertValidSize`: throws for sizes outside `VALID_SIZES`. -/
def assertValidSize (size : Nat) : Except SudokuError Unit :=
  if !(isValidSize size) then .error .unsupportedSize else .ok ()

/-- The per-size digit cache `digitsCache`, modelled as an association list. -/
abbrev DigitsCache := List (Nat × List Nat)

/-- `getDigits`: returns the cached digit list for `size`, creating
`[1, …, size]` on the first call. -/
def getDigits (cache : DigitsCache) (size : Nat) : List Nat × DigitsCache :=
  match cache.lookup size with
  | some ds => (ds, cache)
  | none =>
    let ds := (List.range size).map (· + 1)
    (ds, (size, ds) :: cache)

/-- Write back the (shared, possibly mutated) digit array into the cache slot
for `size`, mirroring the fact that the cache holds the very array object that
was handed out. -/
def setCache (cache : DigitsCache) (size : Nat) (ds : List Nat) : DigitsCache :=
  cache.map (fun p => if p.1 = size then (size, ds) else p)

/-- `BoxDimensions`. -/
structure BoxDimensions where
  rows : Nat
  cols : Nat
  deriving DecidableEq, Repr

/-- `getBoxDimensions` (current version in `sudokuGenerator.ts`): fixed lookup
for the supported sizes, a thrown error for every other size. -/
def getBoxDimensions (size : Nat) : Except SudokuError BoxDimensions :=
  if size = 9 then .ok ⟨3, 3⟩
  else if size = 6 then .ok ⟨2, 3⟩
  else if size = 4 then .ok ⟨2, 2⟩
  else .error .unsupportedSize

/-- The grid: a total function standing for the `N×N` matrix (all source
accesses are in bounds). -/
abbrev Grid := Nat → Nat → Nat

/-- Write a single cell (`grid[row][col] = v`). -/
def setCell (g : Grid) (row col v : Nat) : Grid :=
  fun r c => if r = row ∧ c = col then v else g r c

/-- The all-zero grid produced by `new Array(size).fill(null).map(() => new
Array(size).fill(0))` and by `grid.forEach(row => row.fill(0))`. -/
def zeroGrid : Grid := fun _ _ => 0

/-- Build a grid from a list of rows (used only to state concrete instances). -/
def gridOfLists (l : List (List Nat)) : Grid :=
  fun r c => (l.getD r []).getD c 0

/-- `isValid`: can `num` be placed at `(row, col)`?  False when `num` already
occurs in the row, the column, or the `boxDims.rows × boxDims.cols` box whose
origin is `(row - row % rows, col - col % cols)` (written with `/` below:
`Math.floor(row / rows) * rows`). -/
def isValid (g : Grid) (row col num size : Nat) (boxDims : BoxDimensions) : Bool :=
  ((List.range size).all fun j => g row j != num) &&
  ((List.range size).all fun i => g i col != num) &&
  (let boxRow := row / boxDims.rows * boxDims.rows
   let boxCol := col / boxDims.cols * boxDims.cols
   (List.range boxDims.rows).all fun i =>
     (List.range boxDims.cols).all fun j => g (boxRow + i) (boxCol + j) != num)

/-- `getCandidates`: the digits that may legally occupy `(row, col)`, in digit
order. -/
def getCandidates (g : Grid) (row col size : Nat) (boxDims : BoxDimensions)
    (digits : List Nat) : List Nat :=
  digits.filter (fun num => isValid g row col num size boxDims)

/-- `CandidateCell`. -/
structure CandidateCell where
  row : Nat
  col : Nat
  candidates : List Nat
  deriving Repr, DecidableEq

/-- The cells `(row, col)` for `row, col < size` in the row-major order of the
two nested `for` loops of `findBestCell`. -/
def allCells (size : Nat) : List (Nat × Nat) :=
  (List.range size).flatMap (fun r => (List.range size).map (fun c => (r, c)))

/-- The scanning loop of `findBestCell` over the remaining cells, carrying the
current best cell and its candidate count.  `bestCount` starts at
`digits.length + 1`, which plays the role of `Number.MAX_SAFE_INTEGER`: every
candidate list is a sublist of `digits`, hence strictly shorter. -/
def findBestCellLoop (g : Grid) (size : Nat) (boxDims : BoxDimensions)
    (digits : List Nat) :
    List (Nat × Nat) → Option CandidateCell → Nat → Rng →
      Option CandidateCell × Rng
  | [], best, _, rng => (best, rng)
  | (row, col) :: rest, best, bestCount, rng =>
    if g row col ≠ 0 then findBestCellLoop g size boxDims digits rest best bestCount rng
    else
      let candidates := getCandidates g row col size boxDims digits
      if candidates.length = 0 then (some ⟨row, col, candidates⟩, rng)
      else if candidates.length < bestCount then
        let (sh, rng1) := shuffleArray candidates rng
        if candidates.length = 1 then (some ⟨row, col, sh.1⟩, rng1)
        else findBestCellLoop g size boxDims digits rest (some ⟨row, col, sh.1⟩)
          candidates.length rng1
      else findBestCellLoop g size boxDims digits rest best bestCount rng

/-- `findBestCell`. -/
def findBestCell (g : Grid) (size : Nat) (boxDims : BoxDimensions)
    (digits : List Nat) (rng : Rng) : Option CandidateCell × Rng :=
  findBestCellLoop g size boxDims digits (allCells size) none (digits.length + 1) rng

/-- The `for (const num of candidates)` loop of `solveSudoku`, parameterized by
the recursive solver call: place the candidate, recurse, and on failure
continue with the cell reset to 0 (in the functional embedding, simply with
the unchanged grid `g`). -/
def tryNums (solver : Grid → Rng → Option Grid × Rng) (g : Grid)
    (row col : Nat) : List Nat → Rng → Option Grid × Rng
  | [], rng => (none, rng)
  | num :: rest, rng =>
    match solver (setCell g row col num) rng with
    | (some g1, rng1) => (some g1, rng1)
    | (none, rng1) => tryNums solver g row col rest rng1

/-- `solveSudoku`: backtracking guided by `findBestCell`.  The recursion of the
source decreases the number of empty cells; here `fuel` bounds the recursion
depth (the callers pass `size * size + 1`, which is more than enough). -/
def solveSudoku : Nat → Grid → Nat → BoxDimensions → List Nat → Rng →
    Option Grid × Rng
  | 0, _, _, _, _, rng => (none, rng)
  | f + 1, g, size, boxDims, digits, rng =>
    match findBestCell g size boxDims digits rng with
    | (none, rng1) => (some g, rng1)
    | (some cell, rng1) =>
      tryNums (fun g2 rng2 => solveSudoku f g2 size boxDims digits rng2) g
        cell.row cell.col cell.candidates rng1

/-- `fillBox`: write a shuffled copy of the digit list into the
`boxDims.rows × boxDims.cols` rectangle with top-left corner `(row, col)`;
the write order `grid[row + i][col + j] = numbers[numIndex++]` assigns index
`i * cols + j` to cell `(row + i, col + j)`.  The second component is the digit
array after the call (unchanged, since `shuffleArray` copies). -/
def fillBox (g : Grid) (row col : Nat) (boxDims : BoxDimensions)
    (digits : List Nat) (rng : Rng) : Grid × List Nat × Rng :=
  let ((numbers, digitsAfter), rng1) := shuffleArray digits rng
  (fun r c =>
    if row ≤ r ∧ r < row + boxDims.rows ∧ col ≤ c ∧ c < col + boxDims.cols then
      numbers.getD ((r - row) * boxDims.cols + (c - col)) 0
    else g r c,
   digitsAfter, rng1)

/-- `fillDiagonalBoxes`: the two nested loops over box coordinates, filling a
box exactly when `boxRow === boxCol`.  The digit array is threaded through the
`fillBox` calls (the source passes the same array object to each call). -/
def fillDiagonalBoxes (g : Grid) (size : Nat) (boxDims : BoxDimensions)
    (digits : List Nat) (rng : Rng) : Grid × List Nat × Rng :=
  let boxesPerRow := size / boxDims.cols
  (List.range boxesPerRow).foldl
    (fun s boxRow =>
      (List.range boxesPerRow).foldl
        (fun s boxCol =>
          if boxRow = boxCol then
            fillBox s.1 (boxRow * boxDims.rows) (boxCol * boxDims.cols) boxDims s.2.1 s.2.2
          else s)
        s)
    (g, digits, rng)

/-- One generation attempt of the `for (let attempt = 0; …)` loop: reset the
grid to zero, seed the diagonal boxes, run the solver. -/
def oneAttempt (size : Nat) (boxDims : BoxDimensions) (digits : List Nat)
    (rng : Rng) : Option Grid × List Nat × Rng :=
  let (g1, digits1, rng1) := fillDiagonalBoxes zeroGrid size boxDims digits rng
  let (res, rng2) := solveSudoku (size * size + 1) g1 size boxDims digits1 rng1
  (res, digits1, rng2)

/-- The retry loop of `generateSudoku`, with `maxAttempts` remaining tries. -/
def runAttempts (size : Nat) (boxDims : BoxDimensions) :
    Nat → List Nat → Rng → Option Grid × List Nat × Rng
  | 0, digits, rng => (none, digits, rng)
  | k + 1, digits, rng =>
    match oneAttempt size boxDims digits rng with
    | (some g, digits1, rng1) => (some g, digits1, rng1)
    | (none, digits1, rng1) => runAttempts size boxDims k digits1 rng1

/-- `maxAttempts = 5`. -/
def maxAttempts : Nat := 5

/-- `generateSudoku`: validate the size, fetch box dimensions and the cached
digit list, run up to `maxAttempts` attempts, and either return the first
successful grid or throw.  The digit array used throughout is the cached one;
its final contents are written back to the cache slot, mirroring the shared
object. -/
def generateSudoku (size : Nat) (cache : DigitsCache) (rng : Rng) :
    Except SudokuError Grid × DigitsCache × Rng :=
  match assertValidSize size with
  | .error e => (.error e, cache, rng)
  | .ok _ =>
    match getBoxDimensions size with
    | .error e => (.error e, cache, rng)
    | .ok boxDims =>
      let (digits, cache1) := getDigits cache size
      match runAttempts size boxDims maxAttempts digits rng with
      | (some g, digits1, rng1) => (.ok g, setCache cache1 size digits1, rng1)
      | (none, digits1, rng1) =>
        (.error .generationFailure, setCache cache1 size digits1, rng1)

/-- `getBoxIndex`: `boxRow * boxesPerRow + boxCol` with
`boxesPerRow = size / boxDims.cols`. -/
def getBoxIndex (row col : Nat) (boxDims : BoxDimensions) (size : Nat) : Nat :=
  row / boxDims.rows * (size / boxDims.cols) + col / boxDims.cols

/-- `getSpatialRegion`: the 3×3 tiling by `ceil(size / 3)`-sized tiles. -/
def getSpatialRegion (row col size : Nat) : Nat :=
  let regionSize := (size + 2) / 3
  row / regionSize * 3 + col / regionSize

/-- `Difficulty`. -/
inductive Difficulty where
  | easy
  | medium
  | hard
  | extremelyHard
  deriving DecidableEq, Repr

/-- The `percentages` table, as integer percents (65 = 0.65 and so on). -/
def percent : Difficulty → Nat
  | .easy => 65
  | .medium => 40
  | .hard => 34
  | .extremelyHard => 28

/-- The fill fraction of the `percentages` table as an exact rational. -/
def fillFraction (d : Difficulty) : ℚ := (percent d : ℚ) / 100

/-- `targetCellsToRemove = Math.floor(totalCells * (1 - percentages[difficulty]))`.
For each of the twelve supported `(size, difficulty)` pairs the JS double
computation, the exact rational floor, and this natural-number division agree
(none of the exact values is an integer and the rounding errors are far smaller
than the distance to the next integer). -/
def targetCellsToRemove (totalCells : Nat) (d : Difficulty) : Nat :=
  totalCells * (100 - percent d) / 100

/-- The mutable state of one `createPuzzle` run: the untouched input grid, the
puzzle copy, `removedCells`, the four count tables (total functions defaulting
to 0, the `get(i) || 0` discipline of the source), and the three coverage
sets. -/
structure RState where
  solution : Grid
  puzzle : Grid
  removed : Finset (Nat × Nat)
  rowRemovalCounts : Nat → Nat
  colRemovalCounts : Nat → Nat
  boxRemovalCounts : Nat → Nat
  spatialRegionCounts : Nat → Nat
  rowsWithRemovals : Finset Nat
  colsWithRemovals : Finset Nat
  boxesWithRemovals : Finset Nat

/-- The state at the start of `createPuzzle`: the puzzle is a value copy of the
grid (`grid.map(row => [...row])`), no cell removed yet, all counters zero. -/
def initState (grid : Grid) : RState where
  solution := grid
  puzzle := grid
  removed := ∅
  rowRemovalCounts := fun _ => 0
  colRemovalCounts := fun _ => 0
  boxRemovalCounts := fun _ => 0
  spatialRegionCounts := fun _ => 0
  rowsWithRemovals := ∅
  colsWithRemovals := ∅
  boxesWithRemovals := ∅

/-- Increment a counter table at one index. -/
def bump (f : Nat → Nat) (i : Nat) : Nat → Nat :=
  fun j => if j = i then f i + 1 else f j

/-- `removeCell`: a no-op on an already-removed cell, otherwise zero the puzzle
cell, record it, and update every counter and coverage set.  The `solution`
field is never written. -/
def removeCell (boxDims : BoxDimensions) (size : Nat) (st : RState)
    (row col : Nat) : RState :=
  if (row, col) ∈ st.removed then st
  else
    { st with
      puzzle := setCell st.puzzle row col 0
      removed := insert (row, col) st.removed
      rowRemovalCounts := bump st.rowRemovalCounts row
      colRemovalCounts := bump st.colRemovalCounts col
      boxRemovalCounts := bump st.boxRemovalCounts (getBoxIndex row col boxDims size)
      spatialRegionCounts := bump st.spatialRegionCounts (getSpatialRegion row col size)
      rowsWithRemovals := insert row st.rowsWithRemovals
      colsWithRemovals := insert col st.colsWithRemovals
      boxesWithRemovals := insert (getBoxIndex row col boxDims size) st.boxesWithRemovals }

/-- `getCellPriority`:
`rowCount + colCount + boxCount + spatialCount * 1.5`, encoded exactly as twice
its value so that it stays a natural number: every JS priority is an integer
multiple of 1/2 and exactly representable as a double, so this doubling is an
order- and equality-preserving exact encoding of the source's float. -/
def getCellPriority (boxDims : BoxDimensions) (size : Nat) (st : RState)
    (row col : Nat) : Nat :=
  (st.rowRemovalCounts row + st.colRemovalCounts col
      + st.boxRemovalCounts (getBoxIndex row col boxDims size)) * 2
    + st.spatialRegionCounts (getSpatialRegion row col size) * 3

/-- Comparator of the `(index, priority)` sorts of steps 1 and 2 and of the
`(row, col, priority)` sort of step 3 and the fallback, keyed on the stored
priority.  Insertion sort with this reflexive comparator is stable, like the
JS `sort((a, b) => a[1] - b[1])`. -/
def priLE (a b : α × Nat) : Prop := a.2 ≤ b.2

instance : DecidableRel (@priLE α) := fun a b => inferInstanceAs (Decidable (a.2 ≤ b.2))

/-- Step 1 body for one row: if the row has no removal yet, list its
not-yet-removed cells with their priorities, sort, and remove one cell chosen
at random among the first three. -/
def step1Row (boxDims : BoxDimensions) (size : Nat) (st : RState) (rng : Rng)
    (row : Nat) : RState × Rng :=
  if row ∈ st.rowsWithRemovals then (st, rng)
  else
    let availableCols := ((List.range size).filter
        (fun col => (row, col) ∉ st.removed)).map
      (fun col => (col, getCellPriority boxDims size st row col))
    if availableCols.length > 0 then
      let sorted := availableCols.insertionSort priLE
      let topOptions := sorted.take (min 3 sorted.length)
      let (i, rng1) := randNat rng topOptions.length
      (removeCell boxDims size st row (topOptions.getD i (0, 0)).1, rng1)
    else (st, rng)

/-- Step 1: ensure each row has at least one empty cell. -/
def step1 (boxDims : BoxDimensions) (size : Nat) (st : RState) (rng : Rng) :
    RState × Rng :=
  (List.range size).foldl (fun s row => step1Row boxDims size s.1 s.2 row) (st, rng)

/-- Step 2 body for one column, symmetric to `step1Row`. -/
def step2Col (boxDims : BoxDimensions) (size : Nat) (st : RState) (rng : Rng)
    (col : Nat) : RState × Rng :=
  if col ∈ st.colsWithRemovals then (st, rng)
  else
    let availableRows := ((List.range size).filter
        (fun row => (row, col) ∉ st.removed)).map
      (fun row => (row, getCellPriority boxDims size st row col))
    if availableRows.length > 0 then
      let sorted := availableRows.insertionSort priLE
      let topOptions := sorted.take (min 3 sorted.length)
      let (i, rng1) := randNat rng topOptions.length
      (removeCell boxDims size st (topOptions.getD i (0, 0)).1 col, rng1)
    else (st, rng)

/-- Step 2: ensure each column has at least one empty cell. -/
def step2 (boxDims : BoxDimensions) (size : Nat) (st : RState) (rng : Rng) :
    RState × Rng :=
  (List.range size).foldl (fun s col => step2Col boxDims size s.1 s.2 col) (st, rng)

/-- Comparator of the step-3 sort, keyed on the third component. -/
def priLE3 (a b : Nat × Nat × Nat) : Prop := a.2.2 ≤ b.2.2

instance : DecidableRel priLE3 := fun a b => inferInstanceAs (Decidable (a.2.2 ≤ b.2.2))

/-- Step 3 body for one box index: if the box has no removal yet, list its
not-yet-removed cells with priorities, sort, and remove one chosen at random
among the first three. -/
def step3Box (boxDims : BoxDimensions) (size : Nat) (st : RState) (rng : Rng)
    (boxIdx : Nat) : RState × Rng :=
  if boxIdx ∈ st.boxesWithRemovals then (st, rng)
  else
    let boxesPerRow := size / boxDims.cols
    let startRow := boxIdx / boxesPerRow * boxDims.rows
    let startCol := boxIdx % boxesPerRow * boxDims.cols
    let availableCells := (((List.range boxDims.rows).flatMap
        (fun i => (List.range boxDims.cols).map
          (fun j => (startRow + i, startCol + j)))).filter
        (fun p => p ∉ st.removed)).map
      (fun p => (p.1, p.2, getCellPriority boxDims size st p.1 p.2))
    if availableCells.length > 0 then
      let sorted := availableCells.insertionSort priLE3
      let topOptions := sorted.take (min 3 sorted.length)
      let (i, rng1) := randNat rng topOptions.length
      let e := topOptions.getD i (0, 0, 0)
      (removeCell boxDims size st e.1 e.2.1, rng1)
    else (st, rng)

/-- Step 3: ensure each of the first `boxesPerRow * boxesPerRow` boxes has at
least one empty cell (the source's loop bound; for size 6 this covers only 4 of
the 6 boxes). -/
def step3 (boxDims : BoxDimensions) (size : Nat) (st : RState) (rng : Rng) :
    RState × Rng :=
  let boxesPerRow := size / boxDims.cols
  (List.range (boxesPerRow * boxesPerRow)).foldl
    (fun s boxIdx => step3Box boxDims size s.1 s.2 boxIdx) (st, rng)

/-- An entry of the step-4 pool: `(row, col, priority, spatialRegion)` with
the priority frozen at pool-construction time, as in the source. -/
abbrev Pos4 := Nat × Nat × Nat × Nat

/-- The step-4 pool for one column: its not-yet-removed cells in row order,
with frozen priorities and spatial regions (the source fills the per-column
lists by a row-major scan, so each column's list is in increasing row
order). -/
def step4InitPBC (boxDims : BoxDimensions) (size : Nat) (st : RState) :
    Nat → List Pos4 := fun j =>
  ((List.range size).filter (fun i => (i, j) ∉ st.removed)).map
    (fun i => (i, j, getCellPriority boxDims size st i j, getSpatialRegion i j size))

/-- Comparator of the in-column step-4 sort: priority first, spatial region as
tiebreaker. -/
def pos4LE (a b : Pos4) : Prop :=
  a.2.2.1 < b.2.2.1 ∨ (a.2.2.1 = b.2.2.1 ∧ a.2.2.2 ≤ b.2.2.2)

instance : DecidableRel pos4LE := fun a b =>
  inferInstanceAs (Decidable (a.2.2.1 < b.2.2.1 ∨ (a.2.2.1 = b.2.2.1 ∧ a.2.2.2 ≤ b.2.2.2)))

/-- Comparator of the `columnOrder` sorts: current column removal counts,
ascending. -/
def colOrderLE (st : RState) (a b : Nat) : Prop :=
  st.colRemovalCounts a ≤ st.colRemovalCounts b

instance : DecidableRel (colOrderLE st) := fun a b =>
  inferInstanceAs (Decidable (st.colRemovalCounts a ≤ st.colRemovalCounts b))

/-- The scan for the best entry among the first `min(length, 5)` entries of a
column's pool: strictly lower priority wins, and on priority ties a strictly
lower current spatial-region removal count wins.  Starts from entry 0 like the
source (the first loop iteration compares entry 0 with itself).  Returns the
index to splice. -/
def bestOf5 (spatialRegionCounts : Nat → Nat) (cp : List Pos4) : Nat :=
  let e0 := cp.getD 0 (0, 0, 0, 0)
  ((List.range (min cp.length 5)).foldl
    (fun acc idx =>
      let e := cp.getD idx (0, 0, 0, 0)
      if e.2.2.1 < acc.2.1 ∨
          (e.2.2.1 = acc.2.1 ∧
            spatialRegionCounts e.2.2.2 < spatialRegionCounts acc.2.2) then
        (idx, e.2.2.1, e.2.2.2)
      else acc)
    ((0 : Nat), e0.2.2.1, e0.2.2.2)).1

/-- The round-robin state of step 4. -/
structure S4 where
  st : RState
  pbc : Nat → List Pos4
  columnOrder : List Nat
  removedCount : Nat

/-- The step-4 loop body for a nonempty column `col`: pick the `bestOf5` entry,
splice it out of the column's pool, remove the cell, and re-sort `columnOrder`
by the updated column removal counts. -/
def step4Body (boxDims : BoxDimensions) (size : Nat) (s : S4) (col : Nat) : S4 :=
  let cp := s.pbc col
  let bi := bestOf5 s.st.spatialRegionCounts cp
  let e := cp.getD bi (0, 0, 0, 0)
  let st1 := removeCell boxDims size s.st e.1 e.2.1
  { st := st1
    pbc := fun j => if j = col then cp.eraseIdx bi else s.pbc j
    columnOrder := s.columnOrder.insertionSort (colOrderLE st1)
    removedCount := s.removedCount + 1 }

/-- One pass of `for (const col of columnOrder)` — the JS `for...of` iterator
reads the array by index while the body re-sorts it in place, which the
recursion below replicates (`k` is the iterator index, `m` the number of
iterations left; `columnOrder` always has length `size`, so the callers pass
`m = size`).  Returns the updated state and the `foundAny` flag. -/
def step4Pass (boxDims : BoxDimensions) (size goal : Nat) :
    Nat → Nat → S4 → Bool → S4 × Bool
  | 0, _, s, foundAny => (s, foundAny)
  | m + 1, k, s, foundAny =>
    let col := s.columnOrder.getD k 0
    if s.removedCount ≥ goal then (s, foundAny)
    else if (s.pbc col).length = 0 then step4Pass boxDims size goal m (k + 1) s foundAny
    else step4Pass boxDims size goal m (k + 1) (step4Body boxDims size s col) true

/-- The `while (removedCount < cellsToRemoveNow)` loop; each productive pass
removes at least one cell, so the fuel passed by `step4` suffices. -/
def step4While (boxDims : BoxDimensions) (size goal : Nat) :
    Nat → S4 → S4
  | 0, s => s
  | fuel + 1, s =>
    if s.removedCount < goal then
      let (s1, foundAny) := step4Pass boxDims size goal size 0 s false
      if foundAny then step4While boxDims size goal fuel s1 else s1
    else s

/-- The fallback of step 4: flat global ranking of the remaining cells by
priority, removing the first `min(stillNeed, remaining.length)` of them. -/
def step4Fallback (boxDims : BoxDimensions) (size goal : Nat) (s : S4) : RState :=
  if s.removedCount < goal then
    let remainingPositions := ((allCells size).filter
        (fun p => p ∉ s.st.removed)).map
      (fun p => (p.1, p.2, getCellPriority boxDims size s.st p.1 p.2))
    let sorted := remainingPositions.insertionSort priLE3
    (sorted.take (min (goal - s.removedCount) sorted.length)).foldl
      (fun st e => removeCell boxDims size st e.1 e.2.1) s.st
  else s.st

/-- Step 4: remove additional cells to reach the target, with the round-robin
column balancing and the fallback; deterministic (no random draws). -/
def step4 (boxDims : BoxDimensions) (size target : Nat) (st : RState) : RState :=
  let currentRemoved := st.removed.card
  let additionalToRemove := target - currentRemoved
  if additionalToRemove > 0 then
    let pbc := fun j => (step4InitPBC boxDims size st j).insertionSort pos4LE
    let poolSize := ((List.range size).map (fun j => (pbc j).length)).sum
    let cellsToRemoveNow := min additionalToRemove poolSize
    let columnOrder := (List.range size).insertionSort (colOrderLE st)
    let s := step4While boxDims size cellsToRemoveNow (cellsToRemoveNow + 1)
      ⟨st, pbc, columnOrder, 0⟩
    step4Fallback boxDims size cellsToRemoveNow s
  else st

/-- The whole removal run of `createPuzzle` on a valid size: steps 1–4. -/
def removalRun (boxDims : BoxDimensions) (size target : Nat) (st : RState)
    (rng : Rng) : RState × Rng :=
  let (st1, rng1) := step1 boxDims size st rng
  let (st2, rng2) := step2 boxDims size st1 rng1
  let (st3, rng3) := step3 boxDims size st2 rng2
  (step4 boxDims size target st3, rng3)

/-- `createPuzzle`: validate the size, copy the grid, compute the removal
target, run steps 1–4, and return the puzzle. -/
def createPuzzle (grid : Grid) (size : Nat) (difficulty : Difficulty)
    (rng : Rng) : Except SudokuError (Grid × Rng) :=
  match assertValidSize size with
  | .error e => .error e
  | .ok _ =>
    match getBoxDimensions size with
    | .error e => .error e
    | .ok boxDims =>
      let target := targetCellsToRemove (size * size) difficulty
      let (st4, rng3) := removalRun boxDims size target (initState grid) rng
      .ok (st4.puzzle, rng3)

/-- The number of zero cells among the `size × size` cells of a grid. -/
def zeroCount (g : Grid) (size : Nat) : Nat :=
  ((Finset.range size ×ˢ Finset.range size).filter (fun p => g p.1 p.2 = 0)).card

/-- The zero count of the puzzle `createPuzzle` returns (`none` when it
throws): the observation the density claims are about. -/
def createPuzzleZeroCount (grid : Grid) (size : Nat) (difficulty : Difficulty)
    (rng : Rng) : Option Nat :=
  match createPuzzle grid size difficulty rng with
  | .ok (p, _) => some (zeroCount p size)
  | .error _ => none

/-! ### Permutation facts about `listSwap`, `fyLoop`, `shuffleArray` -/

theorem cons_set_perm {t : List α} {m : Nat} {b : α} (h : t.get? m = some b)
    (x : α) : List.Perm (b :: t.set m x) (x :: t) := by
  rw [List.get?_eq_some] at h
  obtain ⟨hm, hb⟩ := h
  have hd : t = t.take m ++ t[m] :: t.drop (m + 1) := by
    conv_lhs => rw [← List.take_append_drop m t]
    rw [List.drop_eq_getElem_cons hm]
  have hset : t.set m x = t.take m ++ x :: t.drop (m + 1) :=
    List.set_eq_take_cons_drop x hm
  subst hb
  rw [hset]
  have h1 : List.Perm (t.get ⟨m, hm⟩ :: (t.take m ++ x :: t.drop (m + 1)))
      (t.get ⟨m, hm⟩ :: x :: (t.take m ++ t.drop (m + 1))) :=
    List.Perm.cons _ List.perm_middle
  have h2 : List.Perm (t.get ⟨m, hm⟩ :: x :: (t.take m ++ t.drop (m + 1)))
      (x :: t.get ⟨m, hm⟩ :: (t.take m ++ t.drop (m + 1))) :=
    List.Perm.swap _ _ _
  have h3 : List.Perm (x :: t.get ⟨m, hm⟩ :: (t.take m ++ t.drop (m + 1)))
      (x :: (t.take m ++ t.get ⟨m, hm⟩ :: t.drop (m + 1))) :=
    List.Perm.cons _ List.perm_middle.symm
  have h4 : x :: (t.take m ++ t.get ⟨m, hm⟩ :: t.drop (m + 1)) = x :: t := by
    rw [List.get_eq_getElem, ← hd]
  exact h4 ▸ ((h1.trans h2).trans h3)

theorem listSwap_perm (l : List α) (i j : Nat) : List.Perm (listSwap l i j) l := by
  induction l generalizing i j with
  | nil => simp [listSwap]
  | cons x t ih =>
    match i, j with
    | 0, 0 =>
      simp [listSwap, List.get?]
    | 0, m + 1 =>
      simp only [listSwap, List.get?]
      cases hb : t.get? m with
      | none => exact List.Perm.refl _
      | some b =>
        simpa using cons_set_perm hb x
    | m + 1, 0 =>
      simp only [listSwap, List.get?]
      cases ha : t.get? m with
      | none => exact List.Perm.refl _
      | some a =>
        simpa using cons_set_perm ha x
    | m + 1, k + 1 =>
      simp only [listSwap, List.get?]
      cases ha : t.get? m with
      | none => exact List.Perm.refl _
      | some a =>
        cases hb : t.get? k with
        | none => exact List.Perm.refl _
        | some b =>
          have h := ih m k
          simp only [listSwap, ha, hb] at h
          simpa using List.Perm.cons x h

theorem fyLoop_perm (arr : List α) (i : Nat) (rng : Rng) :
    List.Perm (fyLoop arr i rng).1 arr := by
  induction i generalizing arr rng with
  | zero => simp [fyLoop]
  | succ n ih =>
    simp only [fyLoop]
    exact ((ih _ _).trans (listSwap_perm arr (n + 1) _))

/-- The returned array of `shuffleArray` is a permutation of the input. -/
theorem shuffleArray_perm (array : List α) (rng : Rng) :
    List.Perm (shuffleArray array rng).1.1 array := by
  simpa [shuffleArray] using fyLoop_perm array (array.length - 1) rng

/-- The contents of the argument array after a `shuffleArray` call are the
original contents: the source copies before shuffling. -/
theorem shuffleArray_preserves_input (array : List α) (rng : Rng) :
    (shuffleArray array rng).1.2 = array := by
  simp [shuffleArray]

theorem shuffleArray_length (array : List α) (rng : Rng) :
    (shuffleArray array rng).1.1.length = array.length :=
  (shuffleArray_perm array rng).length_eq

/-! ### Reachability: every state change of a `createPuzzle` run is a
`removeCell` on an in-bounds cell -/

/-- One in-bounds `removeCell` step. -/
def RStepRel (boxDims : BoxDimensions) (size : Nat) (s t : RState) : Prop :=
  ∃ r c, r < size ∧ c < size ∧ t = removeCell boxDims size s r c

/-- Reachability by in-bounds `removeCell` steps. -/
def Reach (boxDims : BoxDimensions) (size : Nat) : RState → RState → Prop :=
  Relation.ReflTransGen (RStepRel boxDims size)

theorem Reach.rfl {boxDims size} {s : RState} : Reach boxDims size s s :=
  Relation.ReflTransGen.refl

theorem Reach.trans {boxDims size} {s t u : RState} (h1 : Reach boxDims size s t)
    (h2 : Reach boxDims size t u) : Reach boxDims size s u :=
  Relation.ReflTransGen.trans h1 h2

theorem reach_removeCell {boxDims size} (s : RState) {r c : Nat} (hr : r < size)
    (hc : c < size) : Reach boxDims size s (removeCell boxDims size s r c) :=
  Relation.ReflTransGen.single ⟨r, c, hr, hc, rfl⟩

/-- Any property preserved by in-bounds `removeCell` steps is preserved along
`Reach`. -/
theorem reach_preserves {boxDims size} {P : RState → Prop}
    (hP : ∀ s r c, r < size → c < size → P s → P (removeCell boxDims size s r c))
    {s t : RState} (h : Reach boxDims size s t) (hs : P s) : P t := by
  induction h with
  | refl => exact hs
  | tail _ hstep ih =>
    obtain ⟨r, c, hr, hc, rfl⟩ := hstep
    exact hP _ r c hr hc ih

/-- The supported sizes and their box dimensions, by cases. -/
theorem getBoxDimensions_cases {size : Nat} {bd : BoxDimensions}
    (h : getBoxDimensions size = .ok bd) :
    (size = 9 ∧ bd = ⟨3, 3⟩) ∨ (size = 6 ∧ bd = ⟨2, 3⟩) ∨
      (size = 4 ∧ bd = ⟨2, 2⟩) := by
  by_cases h9 : size = 9
  · subst h9
    simp [getBoxDimensions] at h
    exact Or.inl ⟨rfl, h.symm⟩
  by_cases h6 : size = 6
  · subst h6
    simp [getBoxDimensions] at h
    exact Or.inr (Or.inl ⟨rfl, h.symm⟩)
  by_cases h4 : size = 4
  · subst h4
    simp [getBoxDimensions] at h
    exact Or.inr (Or.inr ⟨rfl, h.symm⟩)
  · simp [getBoxDimensions, h9, h6, h4] at h

/-- Geometry facts used for in-bounds reasoning, by cases on the three
supported sizes. -/
theorem bd_geometry {size : Nat} {bd : BoxDimensions}
    (h : getBoxDimensions size = .ok bd) :
    0 < size ∧ 0 < bd.rows ∧ 0 < bd.cols ∧
      size / bd.cols * bd.rows ≤ size ∧ size / bd.cols * bd.cols ≤ size ∧
      0 < size / bd.cols := by
  rcases getBoxDimensions_cases h with ⟨rfl, rfl⟩ | ⟨rfl, rfl⟩ | ⟨rfl, rfl⟩ <;>
    exact ⟨by decide, by decide, by decide, by decide, by decide, by decide⟩

/-- A member of a `topOptions` list of step 1/2 is a member of the available
list it was built from. -/
theorem mem_topOptions {l : List (α × Nat)} {e : α × Nat} {k : Nat}
    (h : e ∈ (l.insertionSort priLE).take k) : e ∈ l := by
  have h1 : e ∈ l.insertionSort priLE := List.take_subset _ _ h
  exact (List.perm_insertionSort priLE l).mem_iff.mp h1

theorem mem_topOptions3 {l : List (Nat × Nat × Nat)} {e : Nat × Nat × Nat} {k : Nat}
    (h : e ∈ (l.insertionSort priLE3).take k) : e ∈ l := by
  have h1 : e ∈ l.insertionSort priLE3 := List.take_subset _ _ h
  exact (List.perm_insertionSort priLE3 l).mem_iff.mp h1

theorem getD_mem_of_lt {l : List α} {i : Nat} (h : i < l.length) (d : α) :
    l.getD i d ∈ l := by
  rw [List.getD_eq_getElem l d h]
  exact List.getElem_mem h

theorem reach_step1Row {boxDims size} (st : RState) (rng : Rng) {row : Nat}
    (hrow : row < size) :
    Reach boxDims size st (step1Row boxDims size st rng row).1 := by
  unfold step1Row
  split
  · exact Reach.rfl
  · dsimp only
    split
    · rename_i hlen
      set availableCols := ((List.range size).filter
          (fun col => (row, col) ∉ st.removed)).map
        (fun col => (col, getCellPriority boxDims size st row col)) with hac
      set sorted := availableCols.insertionSort priLE with hs
      set topOptions := sorted.take (min 3 sorted.length) with ht
      have hlen2 : 0 < topOptions.length := by
        have hps : sorted.length = availableCols.length :=
          (List.perm_insertionSort priLE availableCols).length_eq
        simp only [ht, List.length_take]
        omega
      have hmem : topOptions.getD ((randNat rng topOptions.length).1) (0, 0) ∈
          availableCols := by
        apply mem_topOptions (k := min 3 sorted.length)
        rw [← ht]
        apply getD_mem_of_lt
        exact Nat.lt_of_lt_of_le (Nat.mod_lt _ hlen2) (Nat.le_refl _)
      simp only [hac, List.mem_map, List.mem_filter, List.mem_range] at hmem
      obtain ⟨col, ⟨hcol, _⟩, he⟩ := hmem
      have : (topOptions.getD ((randNat rng topOptions.length).1) (0, 0)).1 = col := by
        rw [← he]
      rw [this]
      exact reach_removeCell st hrow hcol
    · exact Reach.rfl

theorem reach_step2Col {boxDims size} (st : RState) (rng : Rng) {col : Nat}
    (hcol : col < size) :
    Reach boxDims size st (step2Col boxDims size st rng col).1 := by
  unfold step2Col
  split
  · exact Reach.rfl
  · dsimp only
    split
    · rename_i hlen
      set availableRows := ((List.range size).filter
          (fun row => (row, col) ∉ st.removed)).map
        (fun row => (row, getCellPriority boxDims size st row col)) with har
      set sorted := availableRows.insertionSort priLE with hs
      set topOptions := sorted.take (min 3 sorted.length) with ht
      have hlen2 : 0 < topOptions.length := by
        have hps : sorted.length = availableRows.length :=
          (List.perm_insertionSort priLE availableRows).length_eq
        simp only [ht, List.length_take]
        omega
      have hmem : topOptions.getD ((randNat rng topOptions.length).1) (0, 0) ∈
          availableRows := by
        apply mem_topOptions (k := min 3 sorted.length)
        rw [← ht]
        exact getD_mem_of_lt (Nat.mod_lt _ hlen2) _
      simp only [har, List.mem_map, List.mem_filter, List.mem_range] at hmem
      obtain ⟨row, ⟨hrow, _⟩, he⟩ := hmem
      have hfst : (topOptions.getD ((randNat rng topOptions.length).1) (0, 0)).1 = row := by
        rw [← he]
      rw [hfst]
      exact reach_removeCell st hrow hcol
    · exact Reach.rfl

theorem reach_step3Box {boxDims size} (st : RState) (rng : Rng) {boxIdx : Nat}
    (hbd : getBoxDimensions size = .ok boxDims)
    (hb : boxIdx < size / boxDims.cols * (size / boxDims.cols)) :
    Reach boxDims size st (step3Box boxDims size st rng boxIdx).1 := by
  obtain ⟨hsz, hr0, hc0, hrow_le, hcol_le, hbpr⟩ := bd_geometry hbd
  unfold step3Box
  split
  · exact Reach.rfl
  · dsimp only
    split
    · rename_i hlen
      set cells := (List.range boxDims.rows).flatMap
          (fun i => (List.range boxDims.cols).map
            (fun j => (boxIdx / (size / boxDims.cols) * boxDims.rows + i,
              boxIdx % (size / boxDims.cols) * boxDims.cols + j))) with hcells
      set availableCells := (cells.filter (fun p => p ∉ st.removed)).map
        (fun p => (p.1, p.2, getCellPriority boxDims size st p.1 p.2)) with hac
      set sorted := availableCells.insertionSort priLE3 with hs
      set topOptions := sorted.take (min 3 sorted.length) with ht
      have hlen2 : 0 < topOptions.length := by
        have hps : sorted.length = availableCells.length :=
          (List.perm_insertionSort priLE3 availableCells).length_eq
        simp only [ht, List.length_take]
        omega
      have hmem : topOptions.getD ((randNat rng topOptions.length).1) (0, 0, 0) ∈
          availableCells := by
        apply mem_topOptions3 (k := min 3 sorted.length)
        rw [← ht]
        exact getD_mem_of_lt (Nat.mod_lt _ hlen2) _
      simp only [hac, List.mem_map, List.mem_filter] at hmem
      obtain ⟨p, ⟨hp, _⟩, he⟩ := hmem
      simp only [hcells, List.mem_flatMap, List.mem_map, List.mem_range] at hp
      obtain ⟨i, hi, j, hj, rfl⟩ := hp
      have hq : boxIdx / (size / boxDims.cols) < size / boxDims.cols :=
        Nat.div_lt_of_lt_mul hb
      have hrem : boxIdx % (size / boxDims.cols) < size / boxDims.cols :=
        Nat.mod_lt _ hbpr
      have hrb : boxIdx / (size / boxDims.cols) * boxDims.rows + i < size := by
        have h1 : boxIdx / (size / boxDims.cols) * boxDims.rows + i <
            size / boxDims.cols * boxDims.rows := by
          have := Nat.mul_le_mul_right boxDims.rows
            (Nat.succ_le_of_lt hq)
          calc boxIdx / (size / boxDims.cols) * boxDims.rows + i
              < boxIdx / (size / boxDims.cols) * boxDims.rows + boxDims.rows := by omega
            _ = (boxIdx / (size / boxDims.cols) + 1) * boxDims.rows := by ring
            _ ≤ size / boxDims.cols * boxDims.rows := by
                exact Nat.mul_le_mul_right _ (Nat.succ_le_of_lt hq)
        omega
      have hcb : boxIdx % (size / boxDims.cols) * boxDims.cols + j < size := by
        have h1 : boxIdx % (size / boxDims.cols) * boxDims.cols + j <
            size / boxDims.cols * boxDims.cols := by
          calc boxIdx % (size / boxDims.cols) * boxDims.cols + j
              < boxIdx % (size / boxDims.cols) * boxDims.cols + boxDims.cols := by omega
            _ = (boxIdx % (size / boxDims.cols) + 1) * boxDims.cols := by ring
            _ ≤ size / boxDims.cols * boxDims.cols := by
                exact Nat.mul_le_mul_right _ (Nat.succ_le_of_lt hrem)
        omega
      have hee : (topOptions.getD ((randNat rng topOptions.length).1) (0, 0, 0)).1 =
            boxIdx / (size / boxDims.cols) * boxDims.rows + i ∧
          (topOptions.getD ((randNat rng topOptions.length).1) (0, 0, 0)).2.1 =
            boxIdx % (size / boxDims.cols) * boxDims.cols + j := by
        constructor <;> rw [← he]
      rw [hee.1, hee.2]
      exact reach_removeCell st hrb hcb
    · exact Reach.rfl

/-- Fold a reach-preserving body over a list. -/
theorem reach_foldl {boxDims size} {β : Type} {l : List β}
    {f : RState × Rng → β → RState × Rng}
    (hf : ∀ s b, b ∈ l → Reach boxDims size s.1 (f s b).1) (s0 : RState × Rng) :
    Reach boxDims size s0.1 ((l.foldl f s0).1) := by
  induction l generalizing s0 with
  | nil => exact Reach.rfl
  | cons b t ih =>
    exact (hf s0 b (List.mem_cons_self _ _)).trans
      (ih (fun s e he => hf s e (List.mem_cons_of_mem _ he)) (f s0 b))

theorem reach_step1 {boxDims size} (st : RState) (rng : Rng) :
    Reach boxDims size st (step1 boxDims size st rng).1 := by
  unfold step1
  exact reach_foldl (fun s b hb => reach_step1Row s.1 s.2 (List.mem_range.mp hb)) (st, rng)

theorem reach_step2 {boxDims size} (st : RState) (rng : Rng) :
    Reach boxDims size st (step2 boxDims size st rng).1 := by
  unfold step2
  exact reach_foldl (fun s b hb => reach_step2Col s.1 s.2 (List.mem_range.mp hb)) (st, rng)

theorem reach_step3 {boxDims size} (st : RState) (rng : Rng)
    (hbd : getBoxDimensions size = .ok boxDims) :
    Reach boxDims size st (step3 boxDims size st rng).1 := by
  unfold step3
  exact reach_foldl (fun s b hb => reach_step3Box s.1 s.2 hbd (List.mem_range.mp hb)) (st, rng)

/-- Generic `foldl` invariant. -/
theorem foldl_inv {β γ : Type} {P : γ → Prop} {f : γ → β → γ} {l : List β}
    {init : γ} (h0 : P init) (hstep : ∀ acc b, b ∈ l → P acc → P (f acc b)) :
    P (l.foldl f init) := by
  induction l generalizing init with
  | nil => exact h0
  | cons b t ih =>
    exact ih (hstep init b (List.mem_cons_self _ _) h0)
      (fun acc e he hacc => hstep acc e (List.mem_cons_of_mem _ he) hacc)

/-- The index `bestOf5` returns is a valid index of a nonempty pool. -/
theorem bestOf5_lt {sc : Nat → Nat} {cp : List Pos4} (h : cp ≠ []) :
    bestOf5 sc cp < cp.length := by
  have hlen : 0 < cp.length := List.length_pos.mpr h
  unfold bestOf5
  have : ∀ acc : Nat × Nat × Nat, acc.1 < min cp.length 5 →
      ((List.range (min cp.length 5)).foldl
        (fun acc idx =>
          let e := cp.getD idx (0, 0, 0, 0)
          if e.2.2.1 < acc.2.1 ∨
              (e.2.2.1 = acc.2.1 ∧ sc e.2.2.2 < sc acc.2.2) then
            (idx, e.2.2.1, e.2.2.2)
          else acc)
        acc).1 < min cp.length 5 := by
    intro acc hacc
    refine foldl_inv (P := fun a : Nat × Nat × Nat => a.1 < min cp.length 5) hacc ?_
    intro a b hb ha
    simp only [List.mem_range] at hb
    dsimp only
    split
    · exact hb
    · exact ha
  have h5 : (0 : Nat) < min cp.length 5 := by omega
  exact Nat.lt_of_lt_of_le (this _ h5) (Nat.min_le_left _ _)

/-- The bounds invariant of the step-4 state. -/
def S4ok (size : Nat) (s : S4) : Prop :=
  (∀ j, j < size → ∀ e ∈ s.pbc j, e.1 < size ∧ e.2.1 = j) ∧
  (∀ c ∈ s.columnOrder, c < size)

theorem S4ok_step4Body {boxDims size} {s : S4} (hok : S4ok size s) {col : Nat}
    (hcol : col < size) (hne : s.pbc col ≠ []) :
    S4ok size (step4Body boxDims size s col) ∧
      Reach boxDims size s.st (step4Body boxDims size s col).st := by
  have hbi : bestOf5 s.st.spatialRegionCounts (s.pbc col) < (s.pbc col).length :=
    bestOf5_lt hne
  have hmem : (s.pbc col).getD (bestOf5 s.st.spatialRegionCounts (s.pbc col))
      (0, 0, 0, 0) ∈ s.pbc col := getD_mem_of_lt hbi _
  obtain ⟨he1, he2⟩ := hok.1 col hcol _ hmem
  refine ⟨⟨?_, ?_⟩, ?_⟩
  · intro j hj e hej
    simp only [step4Body] at hej
    by_cases hjc : j = col
    · subst hjc
      rw [if_pos rfl] at hej
      exact hok.1 j hj e (List.eraseIdx_subset _ _ hej)
    · rw [if_neg hjc] at hej
      exact hok.1 j hj e hej
  · intro c hc
    simp only [step4Body] at hc
    exact hok.2 c ((List.perm_insertionSort _ s.columnOrder).mem_iff.mp hc)
  · show Reach boxDims size s.st (removeCell boxDims size s.st _ _)
    rw [he2]
    exact reach_removeCell s.st he1 hcol

theorem reach_step4Pass {boxDims size goal} (hsz : 0 < size) :
    ∀ (m k : Nat) (s : S4) (b : Bool), S4ok size s →
      Reach boxDims size s.st (step4Pass boxDims size goal m k s b).1.st ∧
        S4ok size (step4Pass boxDims size goal m k s b).1 := by
  intro m
  induction m with
  | zero => intro k s b hok; exact ⟨Reach.rfl, hok⟩
  | succ n ih =>
    intro k s b hok
    unfold step4Pass
    dsimp only
    split
    · exact ⟨Reach.rfl, hok⟩
    · split
      · exact ih (k + 1) s b hok
      · rename_i hgoal hne
        have hcollt : s.columnOrder.getD k 0 < size := by
          rcases Nat.lt_or_ge k s.columnOrder.length with hk | hk
          · exact hok.2 _ (getD_mem_of_lt hk 0)
          · rw [List.getD_eq_default _ _ hk]
            exact hsz
        have hcpne : s.pbc (s.columnOrder.getD k 0) ≠ [] := by
          intro hnil
          rw [hnil] at hne
          simp at hne
        obtain ⟨hok1, hreach1⟩ := @S4ok_step4Body boxDims size s hok _ hcollt hcpne
        obtain ⟨hreach2, hok2⟩ := ih (k + 1) _ true hok1
        exact ⟨hreach1.trans hreach2, hok2⟩

theorem reach_step4While {boxDims size goal} (hsz : 0 < size) :
    ∀ (fuel : Nat) (s : S4), S4ok size s →
      Reach boxDims size s.st (step4While boxDims size goal fuel s).st := by
  intro fuel
  induction fuel with
  | zero => intro s hok; exact Reach.rfl
  | succ n ih =>
    intro s hok
    unfold step4While
    split
    · obtain ⟨h1, h2⟩ := @reach_step4Pass boxDims size goal hsz size 0 s false hok
      generalize hres : step4Pass boxDims size goal size 0 s false = res at h1 h2
      obtain ⟨s1, fa⟩ := res
      dsimp only at h1 h2 ⊢
      split
      · exact h1.trans (ih _ h2)
      · exact h1
    · exact Reach.rfl

theorem mem_allCells {size : Nat} {p : Nat × Nat} (h : p ∈ allCells size) :
    p.1 < size ∧ p.2 < size := by
  simp only [allCells, List.mem_flatMap, List.mem_map, List.mem_range] at h
  obtain ⟨r, hr, c, hc, rfl⟩ := h
  exact ⟨hr, hc⟩

/-- Folding `removeCell` over a list of in-bounds triples is a reach. -/
theorem reach_removeFold {boxDims size} {l : List (Nat × Nat × Nat)}
    (hl : ∀ e ∈ l, e.1 < size ∧ e.2.1 < size) (st : RState) :
    Reach boxDims size st
      (l.foldl (fun st e => removeCell boxDims size st e.1 e.2.1) st) := by
  induction l generalizing st with
  | nil => exact Reach.rfl
  | cons e t ih =>
    simp only [List.foldl_cons]
    obtain ⟨h1, h2⟩ := hl e (List.mem_cons_self _ _)
    exact (reach_removeCell st h1 h2).trans
      (ih (fun x hx => hl x (List.mem_cons_of_mem _ hx)) _)

theorem reach_step4Fallback {boxDims size goal} (s : S4) :
    Reach boxDims size s.st (step4Fallback boxDims size goal s) := by
  unfold step4Fallback
  split
  · dsimp only
    apply reach_removeFold
    intro e he
    have h1 := mem_topOptions3 he
    simp only [List.mem_map, List.mem_filter] at h1
    obtain ⟨p, ⟨hp, _⟩, rfl⟩ := h1
    exact mem_allCells hp
  · exact Reach.rfl

theorem reach_step4 {boxDims size target} (st : RState)
    (hbd : getBoxDimensions size = .ok boxDims) :
    Reach boxDims size st (step4 boxDims size target st) := by
  obtain ⟨hsz, -, -, -, -, -⟩ := bd_geometry hbd
  unfold step4
  dsimp only
  split
  · have hok : S4ok size
        ⟨st, fun j => (step4InitPBC boxDims size st j).insertionSort pos4LE,
          (List.range size).insertionSort (colOrderLE st), 0⟩ := by
      constructor
      · intro j hj e hej
        dsimp only at hej
        have h1 : e ∈ step4InitPBC boxDims size st j :=
          (List.perm_insertionSort _ _).mem_iff.mp hej
        simp only [step4InitPBC, List.mem_map, List.mem_filter, List.mem_range] at h1
        obtain ⟨i, ⟨hi, _⟩, rfl⟩ := h1
        exact ⟨hi, rfl⟩
      · intro c hc
        dsimp only at hc
        have h1 : c ∈ List.range size := (List.perm_insertionSort _ _).mem_iff.mp hc
        exact List.mem_range.mp h1
    exact (reach_step4While hsz _ _ hok).trans (reach_step4Fallback _)
  · exact Reach.rfl

theorem reach_removalRun {boxDims size target} (st : RState) (rng : Rng)
    (hbd : getBoxDimensions size = .ok boxDims) :
    Reach boxDims size st (removalRun boxDims size target st rng).1 := by
  unfold removalRun
  dsimp only
  exact (((reach_step1 st rng).trans (reach_step2 _ _)).trans
    (reach_step3 _ _ hbd)).trans (reach_step4 _ hbd)

theorem isValidSize_of_bd {size : Nat} {bd : BoxDimensions}
    (h : getBoxDimensions size = .ok bd) : isValidSize size = true := by
  rcases getBoxDimensions_cases h with ⟨rfl, -⟩ | ⟨rfl, -⟩ | ⟨rfl, -⟩ <;> decide

/-- On a supported size, `createPuzzle` returns the puzzle of the final state
of the four-step removal run. -/
theorem createPuzzle_eq_run (grid : Grid) {size : Nat} (d : Difficulty)
    (rng : Rng) {bd : BoxDimensions} (hbd : getBoxDimensions size = .ok bd) :
    createPuzzle grid size d rng = .ok
      ((removalRun bd size (targetCellsToRemove (size * size) d)
          (initState grid) rng).1.puzzle,
        (removalRun bd size (targetCellsToRemove (size * size) d)
          (initState grid) rng).2) := by
  have hv := isValidSize_of_bd hbd
  simp only [createPuzzle, assertValidSize, hv, Bool.not_true, Bool.false_eq_true,
    if_false, hbd]

/-- `removeCell` never writes the `solution` field. -/
theorem removeCell_solution (boxDims : BoxDimensions) (size : Nat) (st : RState)
    (row col : Nat) : (removeCell boxDims size st row col).solution = st.solution := by
  unfold removeCell
  split <;> rfl

/-- The pointwise description of the puzzle along any reach from the initial
state: a cell is 0 if removed, the solution value otherwise. -/
theorem reach_puzzle_eq {boxDims size} {grid : Grid} {st : RState}
    (h : Reach boxDims size (initState grid) st) :
    st.solution = grid ∧
      ∀ r c, st.puzzle r c = if (r, c) ∈ st.removed then 0 else grid r c := by
  apply reach_preserves
    (P := fun st => st.solution = grid ∧
      ∀ r c, st.puzzle r c = if (r, c) ∈ st.removed then 0 else grid r c)
    ?_ h ?_
  · intro s r c hr hc ⟨hsol, hpz⟩
    unfold removeCell
    split
    · exact ⟨hsol, hpz⟩
    · refine ⟨hsol, ?_⟩
      intro r1 c1
      dsimp only
      by_cases heq : (r1, c1) = (r, c)
      · rw [Prod.mk.injEq] at heq
        obtain ⟨rfl, rfl⟩ := heq
        simp [setCell, Finset.mem_insert]
      · have hne : ¬(r1 = r ∧ c1 = c) := by
          intro ⟨h1, h2⟩
          exact heq (by rw [h1, h2])
        simp only [setCell, if_neg hne]
        rw [hpz r1 c1]
        have : ((r1, c1) ∈ insert (r, c) s.removed) ↔ ((r1, c1) ∈ s.removed) := by
          simp only [Finset.mem_insert]
          exact or_iff_right heq
        simp only [this]
  · constructor
    · rfl
    · intro r c
      simp [initState]

/-! ### Concrete instances used by witnesses and counterexamples -/

/-- A complete 4×4 solution grid. -/
def sampleGrid4 : Grid :=
  gridOfLists [[1, 2, 3, 4], [3, 4, 1, 2], [2, 1, 4, 3], [4, 3, 2, 1]]

/-- A complete 6×6 solution grid (2×3 boxes). -/
def sampleGrid6 : Grid :=
  gridOfLists [[1, 2, 3, 4, 5, 6], [4, 5, 6, 1, 2, 3], [2, 3, 1, 5, 6, 4],
    [5, 6, 4, 2, 3, 1], [3, 1, 2, 6, 4, 5], [6, 4, 5, 3, 1, 2]]

/-! ### Claim C5: `createPuzzle` never mutates its input grid -/

/-- C5: `createPuzzle` never mutates its input Solution grid.  The embedding
keeps the input grid in the `solution` field of the removal state; `removeCell`
— the only state mutation of the run — writes only the puzzle value copy, so
along every reachable state (hence after the whole run, for every difficulty
and every sequence of random choices) the input grid is unchanged, while
`createPuzzle` returns the separately mutated copy. -/
theorem createPuzzle_preserves_solution (grid : Grid) {size : Nat}
    (d : Difficulty) (rng : Rng) {bd : BoxDimensions}
    (hbd : getBoxDimensions size = .ok bd) :
    (∀ st, Reach bd size (initState grid) st → st.solution = grid) ∧
    (removalRun bd size (targetCellsToRemove (size * size) d)
        (initState grid) rng).1.solution = grid ∧
    createPuzzle grid size d rng = .ok
      ((removalRun bd size (targetCellsToRemove (size * size) d)
          (initState grid) rng).1.puzzle,
        (removalRun bd size (targetCellsToRemove (size * size) d)
          (initState grid) rng).2) := by
  refine ⟨fun st h => (reach_puzzle_eq h).1, ?_, createPuzzle_eq_run grid d rng hbd⟩
  exact (reach_puzzle_eq (reach_removalRun _ rng hbd)).1

/-- Witness for C5 at a concrete input. -/
theorem createPuzzle_preserves_solution_witness :
    (removalRun ⟨2, 2⟩ 4 (targetCellsToRemove (4 * 4) .easy)
        (initState sampleGrid4) [1, 2, 1, 0, 2, 0]).1.solution = sampleGrid4 :=
  (@createPuzzle_preserves_solution sampleGrid4 4 .easy [1, 2, 1, 0, 2, 0] ⟨2, 2⟩ (by rfl)).2.1

/-! ### Claim C4: pointwise containment of the puzzle in the solution -/

/-- C4: every cell of the puzzle returned by `createPuzzle` is either 0 or the
corresponding solution cell, and the containment holds throughout the removal
run (at every reachable state), since the only mutation of the puzzle is
setting a cell to 0. -/
theorem createPuzzle_pointwise_containment (grid : Grid) {size : Nat}
    (d : Difficulty) (rng : Rng) {bd : BoxDimensions}
    (hbd : getBoxDimensions size = .ok bd) :
    (∀ st, Reach bd size (initState grid) st → ∀ r c,
      st.puzzle r c = 0 ∨ st.puzzle r c = grid r c) ∧
    (∀ p rng2, createPuzzle grid size d rng = .ok (p, rng2) →
      ∀ r c, p r c = 0 ∨ p r c = grid r c) := by
  have hpt : ∀ st, Reach bd size (initState grid) st → ∀ r c,
      st.puzzle r c = 0 ∨ st.puzzle r c = grid r c := by
    intro st h r c
    rw [(reach_puzzle_eq h).2 r c]
    split
    · exact Or.inl rfl
    · exact Or.inr rfl
  refine ⟨hpt, ?_⟩
  intro p rng2 hok r c
  rw [createPuzzle_eq_run grid d rng hbd] at hok
  have hp : p = (removalRun bd size (targetCellsToRemove (size * size) d)
      (initState grid) rng).1.puzzle := by
    injection hok with h1
    injection h1 with h2 h3
    exact h2.symm
  rw [hp]
  exact hpt _ (reach_removalRun _ rng hbd) r c

/-- Witness for C4 at a concrete input. -/
theorem createPuzzle_pointwise_containment_witness :
    getBoxDimensions 4 = .ok ⟨2, 2⟩ ∧
      ((∀ st, Reach ⟨2, 2⟩ 4 (initState sampleGrid4) st → ∀ r c,
          st.puzzle r c = 0 ∨ st.puzzle r c = sampleGrid4 r c) ∧
        (∀ p rng2, createPuzzle sampleGrid4 4 .easy [1, 2, 1, 0, 2, 0] = .ok (p, rng2) →
          ∀ r c, p r c = 0 ∨ p r c = sampleGrid4 r c)) :=
  ⟨by rfl,
    @createPuzzle_pointwise_containment sampleGrid4 4 .easy [1, 2, 1, 0, 2, 0] ⟨2, 2⟩ (by rfl)⟩

/-! ### Claim C6: unsupported sizes fail fast -/

/-- C6: for a size outside `{4, 6, 9}` both `generateSudoku` and `createPuzzle`
throw `UnsupportedSizeError` before doing any other work: `generateSudoku`
returns its cache and random stream untouched, and `createPuzzle` returns the
error with no copy and no removal performed. -/
theorem unsupported_size_fail_fast (size : Nat) (h : isValidSize size = false)
    (grid : Grid) (d : Difficulty) (cache : DigitsCache) (rng : Rng) :
    generateSudoku size cache rng = (.error .unsupportedSize, cache, rng) ∧
      createPuzzle grid size d rng = .error .unsupportedSize := by
  constructor
  · simp [generateSudoku, assertValidSize, h]
  · simp [createPuzzle, assertValidSize, h]

/-- Witness for C6 at size 5. -/
theorem unsupported_size_fail_fast_witness :
    isValidSize 5 = false ∧
      generateSudoku 5 [] [] = (.error .unsupportedSize, [], []) ∧
      createPuzzle zeroGrid 5 .easy [] = .error .unsupportedSize :=
  ⟨by decide, (unsupported_size_fail_fast 5 (by decide) zeroGrid .easy [] []).1,
    (unsupported_size_fail_fast 5 (by decide) zeroGrid .easy [] []).2⟩

/-! ### Claim C7: the box-shape derivation -/

/-- C7 counterexample: the claim asserts that for `N = 16` the box-shape
derivation returns `(4, 4)` via a square-root fallback; the generator's
`getBoxDimensions` instead throws for every size other than 9, 6, 4. -/
theorem getBoxDimensions_sixteen_refutes :
    getBoxDimensions 16 ≠ .ok ⟨4, 4⟩ := by
  simp [getBoxDimensions]

/-- C7 amended: the box-shape derivation returns the fixed table
`9 ↦ (3,3)`, `6 ↦ (2,3)`, `4 ↦ (2,2)` and raises `UnsupportedSizeError` for
every other size — there is no square-root fallback in the generator, so even
perfect squares like 16 fail. -/
theorem getBoxDimensions_fixed_table :
    getBoxDimensions 9 = .ok ⟨3, 3⟩ ∧ getBoxDimensions 6 = .ok ⟨2, 3⟩ ∧
      getBoxDimensions 4 = .ok ⟨2, 2⟩ ∧
      ∀ size : Nat, size ≠ 9 → size ≠ 6 → size ≠ 4 →
        getBoxDimensions size = .error .unsupportedSize := by
  refine ⟨rfl, rfl, rfl, ?_⟩
  intro size h9 h6 h4
  simp [getBoxDimensions, h9, h6, h4]

/-- Witness for C7 (amended) at size 16. -/
theorem getBoxDimensions_fixed_table_witness :
    getBoxDimensions 16 = .error .unsupportedSize :=
  getBoxDimensions_fixed_table.2.2.2 16 (by decide) (by decide) (by decide)

/-! ### Claim C10: `shuffleArray` mutates nothing and the digit cache stays
ascending -/

/-- Every cached digit list is the ascending `[1, …, size]`. -/
def CacheOK (cache : DigitsCache) : Prop :=
  ∀ p ∈ cache, p.2 = (List.range p.1).map (· + 1)

theorem lookup_mem {cache : DigitsCache} {size : Nat} {ds : List Nat}
    (h : cache.lookup size = some ds) : (size, ds) ∈ cache := by
  induction cache with
  | nil => simp [List.lookup] at h
  | cons p t ih =>
    rw [List.lookup] at h
    by_cases hb : size = p.1
    · rw [show (size == p.1) = true from beq_iff_eq.mpr hb] at h
      injection h with h1
      subst hb
      subst h1
      exact List.mem_cons_self _ _
    · rw [show (size == p.1) = false from beq_eq_false_iff_ne.mpr hb] at h
      exact List.mem_cons_of_mem _ (ih h)

theorem getDigits_spec {cache : DigitsCache} (hc : CacheOK cache) (size : Nat) :
    (getDigits cache size).1 = (List.range size).map (· + 1) ∧
      CacheOK (getDigits cache size).2 := by
  unfold getDigits
  cases hl : cache.lookup size with
  | none =>
    refine ⟨rfl, ?_⟩
    intro p hp
    rcases List.mem_cons.mp hp with rfl | hp2
    · rfl
    · exact hc p hp2
  | some ds => exact ⟨hc _ (lookup_mem hl), hc⟩

theorem setCache_ok {cache : DigitsCache} (hc : CacheOK cache) {size : Nat}
    {ds : List Nat} (hds : ds = (List.range size).map (· + 1)) :
    CacheOK (setCache cache size ds) := by
  intro p hp
  simp only [setCache, List.mem_map] at hp
  obtain ⟨q, hq, rfl⟩ := hp
  by_cases h : q.1 = size
  · rw [if_pos h]
    simpa using hds
  · rw [if_neg h]
    exact hc q hq

theorem fillBox_digits (g : Grid) (row col : Nat) (boxDims : BoxDimensions)
    (digits : List Nat) (rng : Rng) :
    (fillBox g row col boxDims digits rng).2.1 = digits := by
  simp [fillBox, shuffleArray]

theorem fillDiagonalBoxes_digits (g : Grid) (size : Nat)
    (boxDims : BoxDimensions) (digits : List Nat) (rng : Rng) :
    (fillDiagonalBoxes g size boxDims digits rng).2.1 = digits := by
  unfold fillDiagonalBoxes
  refine foldl_inv (P := fun s : Grid × List Nat × Rng => s.2.1 = digits) rfl ?_
  intro acc boxRow _ hacc
  refine foldl_inv (P := fun s : Grid × List Nat × Rng => s.2.1 = digits) hacc ?_
  intro acc2 boxCol _ hacc2
  dsimp only
  split
  · rw [← hacc2]
    exact fillBox_digits _ _ _ _ _ _
  · exact hacc2

theorem oneAttempt_digits (size : Nat) (boxDims : BoxDimensions)
    (digits : List Nat) (rng : Rng) :
    (oneAttempt size boxDims digits rng).2.1 = digits := by
  unfold oneAttempt
  dsimp only
  exact fillDiagonalBoxes_digits _ _ _ _ _

theorem runAttempts_digits (size : Nat) (boxDims : BoxDimensions) :
    ∀ (k : Nat) (digits : List Nat) (rng : Rng),
      (runAttempts size boxDims k digits rng).2.1 = digits := by
  intro k
  induction k with
  | zero => intro digits rng; rfl
  | succ n ih =>
    intro digits rng
    unfold runAttempts
    have h1 := oneAttempt_digits size boxDims digits rng
    cases ha : oneAttempt size boxDims digits rng with
    | mk res rest =>
      obtain ⟨digits1, rng1⟩ := rest
      rw [ha] at h1
      dsimp only at h1
      subst h1
      cases res with
      | none => simpa using ih _ rng1
      | some g => rfl

/-- C10: `shuffleArray` returns a fresh permutation and leaves its input array
untouched (the source copies with `[...array]` before the Fisher–Yates swaps);
consequently the per-size cached digit list handed out by `getDigits` is always
the ascending `[1, …, size]`, and the cache still satisfies this after any
`generateSudoku` call threads the shared array through every shuffle, seeding
and candidate computation (`createPuzzle` never touches the cache). -/
theorem shuffle_no_mutation_cache_ascending (l : List Nat) (rng : Rng)
    (cache : DigitsCache) (hc : CacheOK cache) (size : Nat) :
    (shuffleArray l rng).1.2 = l ∧
      List.Perm (shuffleArray l rng).1.1 l ∧
      (getDigits cache size).1 = (List.range size).map (· + 1) ∧
      CacheOK (getDigits cache size).2 ∧
      CacheOK (generateSudoku size cache rng).2.1 := by
  obtain ⟨hds, hcache1⟩ := getDigits_spec hc size
  refine ⟨shuffleArray_preserves_input l rng, shuffleArray_perm l rng, hds,
    hcache1, ?_⟩
  unfold generateSudoku
  cases hassert : assertValidSize size with
  | error e => exact hc
  | ok u =>
    dsimp only
    cases hbd : getBoxDimensions size with
    | error e => exact hc
    | ok boxDims =>
      dsimp only
      have hdig := runAttempts_digits size boxDims maxAttempts
        (getDigits cache size).1 rng
      cases hrun : runAttempts size boxDims maxAttempts (getDigits cache size).1 rng with
      | mk res rest =>
        obtain ⟨digits1, rng1⟩ := rest
        rw [hrun] at hdig
        dsimp only at hdig
        subst hdig
        cases res with
        | none => exact setCache_ok hcache1 hds
        | some g => exact setCache_ok hcache1 hds

/-- Witness for C10 at concrete inputs. -/
theorem shuffle_no_mutation_cache_ascending_witness :
    CacheOK [] ∧
      ((shuffleArray [1, 2, 3] [5]).1.2 = [1, 2, 3] ∧
        List.Perm (shuffleArray [1, 2, 3] [5]).1.1 [1, 2, 3] ∧
        (getDigits [] 4).1 = (List.range 4).map (· + 1) ∧
        CacheOK (getDigits [] 4).2 ∧
        CacheOK (generateSudoku 4 [] [5]).2.1) :=
  ⟨fun p hp => absurd hp (List.not_mem_nil p),
    shuffle_no_mutation_cache_ascending [1, 2, 3] [5] []
      (fun p hp => absurd hp (List.not_mem_nil p)) 4⟩

/-! ### Claim C3, counterexample part: the zero count can exceed the target -/

/-- C3 counterexample: at size 4 and difficulty `easy` the target is
`⌊16 · (1 − 0.65)⌋ = 5`, but with random draws `[1, 2, 1, 0, 2, 0]` the
coverage phases (steps 1–2) already remove 6 cells, step 4 removes nothing,
and the returned puzzle has 6 zero cells — the claimed exact equality fails. -/
theorem createPuzzle_density_refuted :
    createPuzzleZeroCount sampleGrid4 4 .easy [1, 2, 1, 0, 2, 0] = some 6 ∧
      ⌊((4 * 4 : ℚ) * (1 - fillFraction .easy))⌋ = (5 : ℤ) ∧ (6 : ℤ) ≠ 5 := by
  refine ⟨by decide, ?_, by decide⟩
  rw [Int.floor_eq_iff]
  constructor
  · norm_num [fillFraction, percent]
  · norm_num [fillFraction, percent]

/-! ### Solver correctness: consistency and validity predicates -/

/-- Two distinct in-bounds cells that share a row, a column, or a box never
hold the same nonzero digit. -/
def Consistent (g : Grid) (size : Nat) (bd : BoxDimensions) : Prop :=
  ∀ r1 c1 r2 c2, r1 < size → c1 < size → r2 < size → c2 < size →
    (r1, c1) ≠ (r2, c2) →
    (r1 = r2 ∨ c1 = c2 ∨
      (r1 / bd.rows = r2 / bd.rows ∧ c1 / bd.cols = c2 / bd.cols)) →
    g r1 c1 ≠ 0 → g r1 c1 ≠ g r2 c2

/-- All in-bounds entries are at most `size` (0 meaning empty). -/
def InRange (g : Grid) (size : Nat) : Prop :=
  ∀ r c, r < size → c < size → g r c ≤ size

/-- No empty cell among the in-bounds cells. -/
def Complete (g : Grid) (size : Nat) : Prop :=
  ∀ r c, r < size → c < size → g r c ≠ 0

theorem isValid_iff {g : Grid} {row col num size : Nat} {bd : BoxDimensions} :
    isValid g row col num size bd = true ↔
      (∀ j, j < size → g row j ≠ num) ∧ (∀ i, i < size → g i col ≠ num) ∧
      ∀ i, i < bd.rows → ∀ j, j < bd.cols →
        g (row / bd.rows * bd.rows + i) (col / bd.cols * bd.cols + j) ≠ num := by
  simp only [isValid, Bool.and_eq_true, List.all_eq_true, List.mem_range,
    bne_iff_ne, ne_eq]
  tauto

/-- A cell of the same row, column, or box as `(row, col)`, other than
`(row, col)` itself, does not hold `num` when `isValid` approved placing `num`
at `(row, col)`. -/
theorem isValid_excludes {g : Grid} {row col num size : Nat}
    {bd : BoxDimensions} (hvalid : isValid g row col num size bd = true)
    (hr0 : 0 < bd.rows) (hc0 : 0 < bd.cols) {r c : Nat} (hr : r < size)
    (hc : c < size)
    (hunit : r = row ∨ c = col ∨
      (r / bd.rows = row / bd.rows ∧ c / bd.cols = col / bd.cols)) :
    g r c ≠ num := by
  rw [isValid_iff] at hvalid
  obtain ⟨hrowchk, hcolchk, hboxchk⟩ := hvalid
  rcases hunit with rfl | rfl | ⟨hbr, hbc⟩
  · exact hrowchk c hc
  · exact hcolchk r hr
  · have h1 := hboxchk (r % bd.rows) (Nat.mod_lt _ hr0) (c % bd.cols)
      (Nat.mod_lt _ hc0)
    have e1 : row / bd.rows * bd.rows + r % bd.rows = r := by
      rw [← hbr, Nat.mul_comm]
      exact Nat.div_add_mod r bd.rows
    have e2 : col / bd.cols * bd.cols + c % bd.cols = c := by
      rw [← hbc, Nat.mul_comm]
      exact Nat.div_add_mod c bd.cols
    rw [e1, e2] at h1
    exact h1

theorem setCell_self (g : Grid) (row col v : Nat) :
    setCell g row col v row col = v := by
  simp [setCell]

theorem setCell_other (g : Grid) (row col v : Nat) {r c : Nat}
    (h : (r, c) ≠ (row, col)) : setCell g row col v r c = g r c := by
  have hne : ¬(r = row ∧ c = col) := by
    intro ⟨h1, h2⟩
    exact h (by rw [h1, h2])
  simp [setCell, hne]

/-- Placing an `isValid`-approved nonzero digit on an empty cell preserves
consistency. -/
theorem Consistent_setCell {g : Grid} {size : Nat} {bd : BoxDimensions}
    (hg : Consistent g size bd) {row col num : Nat} (hrow : row < size)
    (hcol : col < size)
    (hvalid : isValid g row col num size bd = true)
    (hr0 : 0 < bd.rows) (hc0 : 0 < bd.cols) :
    Consistent (setCell g row col num) size bd := by
  intro r1 c1 r2 c2 h1 h2 h3 h4 hne hunit hnz
  by_cases e1 : (r1, c1) = (row, col)
  · by_cases e2 : (r2, c2) = (row, col)
    · exact absurd (e1.trans e2.symm) hne
    · rw [Prod.mk.injEq] at e1
      obtain ⟨rfl, rfl⟩ := e1
      rw [setCell_self] at hnz ⊢
      rw [setCell_other g _ _ _ e2]
      have hu2 : r2 = r1 ∨ c2 = c1 ∨
          (r2 / bd.rows = r1 / bd.rows ∧ c2 / bd.cols = c1 / bd.cols) := by
        rcases hunit with h | h | ⟨ha, hb⟩
        · exact Or.inl h.symm
        · exact Or.inr (Or.inl h.symm)
        · exact Or.inr (Or.inr ⟨ha.symm, hb.symm⟩)
      exact fun hcontra =>
        isValid_excludes hvalid hr0 hc0 h3 h4 hu2 hcontra.symm
  · by_cases e2 : (r2, c2) = (row, col)
    · rw [Prod.mk.injEq] at e2
      obtain ⟨rfl, rfl⟩ := e2
      rw [setCell_other g _ _ _ e1] at hnz ⊢
      rw [setCell_self]
      exact isValid_excludes hvalid hr0 hc0 h1 h2 hunit
    · rw [setCell_other g _ _ _ e1] at hnz ⊢
      rw [setCell_other g _ _ _ e2]
      exact hg r1 c1 r2 c2 h1 h2 h3 h4 hne hunit hnz

theorem InRange_setCell {g : Grid} {size : Nat} (hg : InRange g size)
    {row col num : Nat} (hnum : num ≤ size) :
    InRange (setCell g row col num) size := by
  intro r c hr hc
  by_cases h : (r, c) = (row, col)
  · rw [Prod.mk.injEq] at h
    obtain ⟨rfl, rfl⟩ := h
    rw [setCell_self]
    exact hnum
  · rw [setCell_other g _ _ _ h]
    exact hg r c hr hc

/-- The digit lists used by the generator: `[1, …, size]` membership facts. -/
theorem digits_mem_bounds {size d : Nat}
    (h : d ∈ (List.range size).map (· + 1)) : 1 ≤ d ∧ d ≤ size := by
  simp only [List.mem_map, List.mem_range] at h
  obtain ⟨i, hi, rfl⟩ := h
  omega

/-! ### `findBestCell` guarantees -/

/-- What a returned best cell satisfies: in bounds, empty, and candidate list a
permutation of its legal candidates. -/
def CellOK (g : Grid) (size : Nat) (bd : BoxDimensions) (digits : List Nat)
    (cell : CandidateCell) : Prop :=
  cell.row < size ∧ cell.col < size ∧ g cell.row cell.col = 0 ∧
    List.Perm cell.candidates (getCandidates g cell.row cell.col size bd digits)

theorem mem_getCandidates {g : Grid} {row col size : Nat} {bd : BoxDimensions}
    {digits : List Nat} {num : Nat}
    (h : num ∈ getCandidates g row col size bd digits) :
    num ∈ digits ∧ isValid g row col num size bd = true := by
  simpa [getCandidates, List.mem_filter] using h

theorem findBestCellLoop_some {g : Grid} {size : Nat} {bd : BoxDimensions}
    {digits : List Nat} :
    ∀ (cells : List (Nat × Nat)) (best : Option CandidateCell) (bc : Nat)
      (rng : Rng) {cell : CandidateCell} {rng1 : Rng},
      (∀ p ∈ cells, p.1 < size ∧ p.2 < size) →
      (∀ b, best = some b → CellOK g size bd digits b) →
      findBestCellLoop g size bd digits cells best bc rng = (some cell, rng1) →
      CellOK g size bd digits cell := by
  intro cells
  induction cells with
  | nil =>
    intro best bc rng cell rng1 hb hbest h
    rw [findBestCellLoop] at h
    injection h with h1 h2
    exact hbest cell h1
  | cons p rest ih =>
    intro best bc rng cell rng1 hb hbest h
    obtain ⟨row, col⟩ := p
    obtain ⟨hrow, hcol⟩ := hb (row, col) (List.mem_cons_self _ _)
    have hbrest := fun q hq => hb q (List.mem_cons_of_mem _ hq)
    rw [findBestCellLoop] at h
    dsimp only at h
    split at h
    · exact ih _ _ _ hbrest hbest h
    · rename_i hzero
      rw [Decidable.not_not] at hzero
      split at h
      · injection h with h1 h2
        injection h1 with h1
        subst h1
        exact ⟨hrow, hcol, hzero, List.Perm.refl _⟩
      · split at h
        · split at h
          · injection h with h1 h2
            injection h1 with h1
            subst h1
            exact ⟨hrow, hcol, hzero, shuffleArray_perm _ _⟩
          · refine ih _ _ _ hbrest ?_ h
            intro b hbeq
            injection hbeq with hbeq1
            subst hbeq1
            exact ⟨hrow, hcol, hzero, shuffleArray_perm _ _⟩
        · exact ih _ _ _ hbrest hbest h

theorem findBestCell_some {g : Grid} {size : Nat} {bd : BoxDimensions}
    {digits : List Nat} {rng : Rng} {cell : CandidateCell} {rng1 : Rng}
    (h : findBestCell g size bd digits rng = (some cell, rng1)) :
    CellOK g size bd digits cell := by
  refine findBestCellLoop_some (allCells size) none (digits.length + 1) rng
    (fun p hp => mem_allCells hp) (fun b hb => by cases hb) h

theorem findBestCellLoop_none {g : Grid} {size : Nat} {bd : BoxDimensions}
    {digits : List Nat} :
    ∀ (cells : List (Nat × Nat)) (best : Option CandidateCell) (bc : Nat)
      (rng : Rng) {rng1 : Rng},
      (best = none → bc = digits.length + 1) →
      findBestCellLoop g size bd digits cells best bc rng = (none, rng1) →
      best = none ∧ ∀ p ∈ cells, g p.1 p.2 ≠ 0 := by
  intro cells
  induction cells with
  | nil =>
    intro best bc rng rng1 hbc h
    rw [findBestCellLoop] at h
    injection h with h1 h2
    exact ⟨h1, fun p hp => absurd hp (List.not_mem_nil p)⟩
  | cons p rest ih =>
    intro best bc rng rng1 hbc h
    obtain ⟨row, col⟩ := p
    rw [findBestCellLoop] at h
    dsimp only at h
    split at h
    · rename_i hnz
      obtain ⟨h1, h2⟩ := ih _ _ _ hbc h
      refine ⟨h1, ?_⟩
      intro q hq
      rcases List.mem_cons.mp hq with rfl | hq2
      · exact hnz
      · exact h2 q hq2
    · rename_i hzero
      rw [Decidable.not_not] at hzero
      split at h
      · cases h
      · split at h
        · split at h
          · cases h
          · obtain ⟨h1, -⟩ := ih _ _ _ (fun hx => by cases hx) h
            cases h1
        · rename_i hnlt
          obtain ⟨h1, -⟩ := ih _ _ _ hbc h
          subst h1
          rw [hbc rfl] at hnlt
          have hle : (getCandidates g row col size bd digits).length ≤
              digits.length := List.length_filter_le _ _
          omega

theorem mem_allCells_of_lt {size r c : Nat} (hr : r < size) (hc : c < size) :
    (r, c) ∈ allCells size := by
  simp only [allCells, List.mem_flatMap, List.mem_map, List.mem_range]
  exact ⟨r, hr, c, hc, rfl⟩

theorem findBestCell_none {g : Grid} {size : Nat} {bd : BoxDimensions}
    {digits : List Nat} {rng : Rng} {rng1 : Rng}
    (h : findBestCell g size bd digits rng = (none, rng1)) :
    Complete g size := by
  intro r c hr hc
  exact (findBestCellLoop_none (allCells size) none (digits.length + 1) rng
    (fun _ => rfl) h).2 (r, c) (mem_allCells_of_lt hr hc)

/-! ### Solver soundness -/

theorem solveSudoku_sound {size : Nat} {bd : BoxDimensions} {digits : List Nat}
    (hr0 : 0 < bd.rows) (hc0 : 0 < bd.cols)
    (hdig : digits = (List.range size).map (· + 1)) :
    ∀ (fuel : Nat) (g : Grid) (rng : Rng) {g1 : Grid} {rng1 : Rng},
      solveSudoku fuel g size bd digits rng = (some g1, rng1) →
      Consistent g size bd → InRange g size →
      Consistent g1 size bd ∧ InRange g1 size ∧ Complete g1 size := by
  intro fuel
  induction fuel with
  | zero =>
    intro g rng g1 rng1 h
    rw [solveSudoku] at h
    cases h
  | succ f ih =>
    intro g rng g1 rng1 h hcons hrange
    rw [solveSudoku] at h
    cases hfb : findBestCell g size bd digits rng with
    | mk res rng2 =>
      rw [hfb] at h
      cases res with
      | none =>
        dsimp only at h
        injection h with h1 h2
        injection h1 with h1
        subst h1
        exact ⟨hcons, hrange, findBestCell_none hfb⟩
      | some cell =>
        dsimp only at h
        obtain ⟨hcr, hcc, hcz, hcperm⟩ := findBestCell_some hfb
        have htry : ∀ (l : List Nat) (rng3 : Rng),
            (∀ num ∈ l, num ∈ getCandidates g cell.row cell.col size bd digits) →
            tryNums (fun g2 rng2 => solveSudoku f g2 size bd digits rng2) g
              cell.row cell.col l rng3 = (some g1, rng1) →
            Consistent g1 size bd ∧ InRange g1 size ∧ Complete g1 size := by
          intro l
          induction l with
          | nil =>
            intro rng3 hmem hl
            rw [tryNums] at hl
            cases hl
          | cons num rest ihl =>
            intro rng3 hmem hl
            rw [tryNums] at hl
            obtain ⟨hmemd, hval⟩ := mem_getCandidates
              (hmem num (List.mem_cons_self _ _))
            obtain ⟨h1le, h2le⟩ := digits_mem_bounds (hdig ▸ hmemd)
            cases hrec : solveSudoku f (setCell g cell.row cell.col num) size
                bd digits rng3 with
            | mk res2 rng4 =>
              rw [hrec] at hl
              cases res2 with
              | some g2 =>
                dsimp only at hl
                injection hl with hl1 hl2
                injection hl1 with hl1
                subst hl1
                exact ih _ rng3 hrec
                  (Consistent_setCell hcons hcr hcc hval hr0 hc0)
                  (InRange_setCell hrange h2le)
              | none =>
                dsimp only at hl
                exact ihl _ (fun q hq => hmem q (List.mem_cons_of_mem _ hq)) hl
        exact htry cell.candidates rng2
          (fun num hnum => hcperm.mem_iff.mp hnum) h

/-! ### Diagonal seeding produces a consistent partial grid -/

/-- Extended geometry: the box dimensions multiply to the size. -/
theorem bd_mul {size : Nat} {bd : BoxDimensions}
    (h : getBoxDimensions size = .ok bd) : bd.rows * bd.cols = size := by
  rcases getBoxDimensions_cases h with ⟨rfl, rfl⟩ | ⟨rfl, rfl⟩ | ⟨rfl, rfl⟩ <;> decide

theorem rect_index_inj {a1 b1 a2 b2 cols : Nat} (hb1 : b1 < cols)
    (hb2 : b2 < cols) (h : a1 * cols + b1 = a2 * cols + b2) :
    a1 = a2 ∧ b1 = b2 := by
  have ha : a1 = a2 := by
    rcases Nat.lt_trichotomy a1 a2 with hlt | heq | hgt
    · have : a1 * cols + b1 < a2 * cols + b2 := by
        calc a1 * cols + b1 < a1 * cols + cols := by omega
          _ = (a1 + 1) * cols := by ring
          _ ≤ a2 * cols := Nat.mul_le_mul_right _ hlt
          _ ≤ a2 * cols + b2 := Nat.le_add_right _ _
      omega
    · exact heq
    · have : a2 * cols + b2 < a1 * cols + b1 := by
        calc a2 * cols + b2 < a2 * cols + cols := by omega
          _ = (a2 + 1) * cols := by ring
          _ ≤ a1 * cols := Nat.mul_le_mul_right _ hgt
          _ ≤ a1 * cols + b1 := Nat.le_add_right _ _
      omega
  subst ha
  exact ⟨rfl, Nat.add_left_cancel h⟩

theorem rect_lt {a b rows cols : Nat} (ha : a < rows) (hb : b < cols) :
    a * cols + b < rows * cols := by
  calc a * cols + b < a * cols + cols := by omega
    _ = (a + 1) * cols := by ring
    _ ≤ rows * cols := Nat.mul_le_mul_right _ ha

theorem div_eq_box {k n x : Nat} (h1 : k * n ≤ x) (h2 : x < k * n + n) :
    x / n = k :=
  Nat.div_eq_of_lt_le h1 (by rw [Nat.succ_mul]; omega)

theorem box_range_of_div {n x k : Nat} (hn : 0 < n) (h : x / n = k) :
    k * n ≤ x ∧ x < k * n + n := by
  have hm := Nat.div_add_mod x n
  have hmod := Nat.mod_lt x hn
  constructor
  · calc k * n = n * (x / n) := by rw [h, Nat.mul_comm]
      _ ≤ x := by omega
  · calc x = n * (x / n) + x % n := hm.symm
      _ = k * n + x % n := by rw [h, Nat.mul_comm]
      _ < k * n + n := by omega

/-- The invariant after filling the first `m` diagonal boxes: nonzero cells
live only in those boxes, entries are in range, and the grid is consistent. -/
def DiagPartial (g : Grid) (size : Nat) (bd : BoxDimensions) (m : Nat) : Prop :=
  InRange g size ∧ Consistent g size bd ∧
    ∀ r c, r < size → c < size → g r c ≠ 0 →
      r / bd.rows = c / bd.cols ∧ r / bd.rows < m

theorem DiagPartial_zero {size : Nat} {bd : BoxDimensions} :
    DiagPartial zeroGrid size bd 0 := by
  refine ⟨fun r c _ _ => Nat.zero_le _, ?_, ?_⟩
  · intro r1 c1 r2 c2 _ _ _ _ _ _ hnz
    exact absurd rfl hnz
  · intro r c _ _ hnz
    exact absurd rfl hnz

/-- Filling diagonal box `k` preserves the invariant. -/
theorem DiagPartial_fillBox {size : Nat} {bd : BoxDimensions} {g : Grid}
    (hbd : getBoxDimensions size = .ok bd) {k : Nat}
    (hpart : DiagPartial g size bd k) (digits : List Nat)
    (hdig : digits = (List.range size).map (· + 1)) (rng : Rng) :
    DiagPartial (fillBox g (k * bd.rows) (k * bd.cols) bd digits rng).1 size bd
      (k + 1) := by
  obtain ⟨hsz, hr0, hc0, hrowle, hcolle, hbpr⟩ := bd_geometry hbd
  have hmul : bd.rows * bd.cols = size := bd_mul hbd
  obtain ⟨hrange, hcons, hsupp⟩ := hpart
  set numbers := (shuffleArray digits rng).1.1 with hnumbers
  have hperm : List.Perm numbers digits := shuffleArray_perm _ _
  have hlen : numbers.length = size := by
    rw [hperm.length_eq, hdig, List.length_map, List.length_range]
  have hnodup : numbers.Nodup := by
    rw [hperm.nodup_iff]
    rw [hdig]
    exact List.Nodup.map (fun a b => by omega) (List.nodup_range _)
  -- the filled grid
  have hfb : (fillBox g (k * bd.rows) (k * bd.cols) bd digits rng).1 =
      fun r c =>
        if k * bd.rows ≤ r ∧ r < k * bd.rows + bd.rows ∧
            k * bd.cols ≤ c ∧ c < k * bd.cols + bd.cols then
          numbers.getD ((r - k * bd.rows) * bd.cols + (c - k * bd.cols)) 0
        else g r c := by
    rw [fillBox]
  rw [hfb]
  -- membership facts about rectangle values
  have hval : ∀ r c, k * bd.rows ≤ r → r < k * bd.rows + bd.rows →
      k * bd.cols ≤ c → c < k * bd.cols + bd.cols →
      numbers.getD ((r - k * bd.rows) * bd.cols + (c - k * bd.cols)) 0 ∈ digits := by
    intro r c h1 h2 h3 h4
    have hidx : (r - k * bd.rows) * bd.cols + (c - k * bd.cols) < numbers.length := by
      rw [hlen, ← hmul]
      exact rect_lt (by omega) (by omega)
    exact hperm.subset (getD_mem_of_lt hidx 0)
  have hvalb : ∀ v ∈ digits, 1 ≤ v ∧ v ≤ size := fun v hv =>
    digits_mem_bounds (hdig ▸ hv)
  -- quotients of rectangle cells
  have hq : ∀ x, k * bd.rows ≤ x → x < k * bd.rows + bd.rows → x / bd.rows = k :=
    fun x h1 h2 => div_eq_box h1 h2
  have hqc : ∀ x, k * bd.cols ≤ x → x < k * bd.cols + bd.cols → x / bd.cols = k :=
    fun x h1 h2 => div_eq_box h1 h2
  refine ⟨?_, ?_, ?_⟩
  · -- InRange
    intro r c hr hc
    dsimp only
    split
    · rename_i hrect
      exact (hvalb _ (hval r c hrect.1 hrect.2.1 hrect.2.2.1 hrect.2.2.2)).2
    · exact hrange r c hr hc
  · -- Consistent
    intro r1 c1 r2 c2 h1 h2 h3 h4 hne hunit hnz
    dsimp only at hnz ⊢
    by_cases e1 : k * bd.rows ≤ r1 ∧ r1 < k * bd.rows + bd.rows ∧
        k * bd.cols ≤ c1 ∧ c1 < k * bd.cols + bd.cols
    · by_cases e2 : k * bd.rows ≤ r2 ∧ r2 < k * bd.rows + bd.rows ∧
          k * bd.cols ≤ c2 ∧ c2 < k * bd.cols + bd.cols
      · -- both inside box k: distinct positions give distinct values
        rw [if_pos e1, if_pos e2]
        intro heq
        have hi1 : (r1 - k * bd.rows) * bd.cols + (c1 - k * bd.cols) <
            numbers.length := by
          rw [hlen, ← hmul]
          exact rect_lt (by omega) (by omega)
        have hi2 : (r2 - k * bd.rows) * bd.cols + (c2 - k * bd.cols) <
            numbers.length := by
          rw [hlen, ← hmul]
          exact rect_lt (by omega) (by omega)
        rw [List.getD_eq_getElem _ _ hi1, List.getD_eq_getElem _ _ hi2] at heq
        have hidx : (⟨(r1 - k * bd.rows) * bd.cols + (c1 - k * bd.cols), hi1⟩ :
              Fin numbers.length) =
            ⟨(r2 - k * bd.rows) * bd.cols + (c2 - k * bd.cols), hi2⟩ :=
          (List.nodup_iff_injective_getElem.mp hnodup) heq

        have hidx2 : (r1 - k * bd.rows) * bd.cols + (c1 - k * bd.cols) =
            (r2 - k * bd.rows) * bd.cols + (c2 - k * bd.cols) := by
          exact congrArg Fin.val hidx
        obtain ⟨ha, hb⟩ := rect_index_inj (by omega) (by omega) hidx2
        exact hne (by rw [Prod.mk.injEq]; omega)
      · -- r2 outside the box: its nonzero value lives in an earlier diagonal box
        rw [if_pos e1, if_neg e2]
        intro heq
        have hnz2 : g r2 c2 ≠ 0 := by
          rw [← heq]
          have hv := hval r1 c1 e1.1 e1.2.1 e1.2.2.1 e1.2.2.2
          have := (hvalb _ hv).1
          omega
        obtain ⟨hdiag, hlt⟩ := hsupp r2 c2 h3 h4 hnz2
        -- same unit forces box k = earlier box, contradiction
        have hr1q : r1 / bd.rows = k := hq r1 e1.1 e1.2.1
        have hc1q : c1 / bd.cols = k := hqc c1 e1.2.2.1 e1.2.2.2
        rcases hunit with rfl | rfl | ⟨hbr, hbc⟩
        · rw [hr1q] at hdiag
          omega
        · rw [hc1q] at hdiag
          omega
        · rw [hr1q] at hbr
          rw [← hbr] at hlt
          omega
    · by_cases e2 : k * bd.rows ≤ r2 ∧ r2 < k * bd.rows + bd.rows ∧
          k * bd.cols ≤ c2 ∧ c2 < k * bd.cols + bd.cols
      · -- r1 outside, r2 inside: symmetric
        rw [if_neg e1] at hnz ⊢
        rw [if_pos e2]
        intro heq
        obtain ⟨hdiag, hlt⟩ := hsupp r1 c1 h1 h2 hnz
        have hr2q : r2 / bd.rows = k := hq r2 e2.1 e2.2.1
        have hc2q : c2 / bd.cols = k := hqc c2 e2.2.2.1 e2.2.2.2
        rcases hunit with rfl | rfl | ⟨hbr, hbc⟩
        · rw [hr2q] at hdiag
          omega
        · rw [hc2q] at hdiag
          omega
        · rw [hr2q] at hbr
          rw [hbr] at hdiag
          omega
      · rw [if_neg e1] at hnz
        rw [if_neg e1, if_neg e2]
        exact hcons r1 c1 r2 c2 h1 h2 h3 h4 hne hunit hnz
  · -- support
    intro r c hr hc hnz
    dsimp only at hnz
    by_cases e : k * bd.rows ≤ r ∧ r < k * bd.rows + bd.rows ∧
        k * bd.cols ≤ c ∧ c < k * bd.cols + bd.cols
    · rw [hq r e.1 e.2.1, hqc c e.2.2.1 e.2.2.2]
      omega
    · rw [if_neg e] at hnz
      obtain ⟨hdiag, hlt⟩ := hsupp r c hr hc hnz
      exact ⟨hdiag, by omega⟩

theorem foldl_ite_skip {α : Type} {f : α → Nat → α} {k : Nat} :
    ∀ {l : List Nat}, (∀ i ∈ l, k ≠ i) → ∀ a : α,
      l.foldl (fun s i => if k = i then f s i else s) a = a := by
  intro l
  induction l with
  | nil => intro h a; rfl
  | cons i t ih =>
    intro h a
    rw [List.foldl_cons, if_neg (h i (List.mem_cons_self _ _)), ih]
    intro j hj
    exact h j (List.mem_cons_of_mem _ hj)

theorem foldl_ite_once {α : Type} {f : α → Nat → α} {k : Nat} :
    ∀ {m : Nat}, k < m → ∀ a : α,
      (List.range m).foldl (fun s i => if k = i then f s i else s) a = f a k := by
  intro m
  induction m with
  | zero => intro h; omega
  | succ n ih =>
    intro hk a
    rw [List.range_succ, List.foldl_append]
    by_cases hkn : k = n
    · subst hkn
      rw [foldl_ite_skip (l := List.range k) (fun i hi => by
        have := List.mem_range.mp hi
        omega)]
      simp
    · have hlt : k < n := by omega
      rw [ih hlt]
      simp [hkn]

/-- The inner loop of `fillDiagonalBoxes` for a fixed `boxRow` amounts to one
`fillBox` call at the diagonal position. -/
theorem fillDiagonal_inner {size : Nat} {bd : BoxDimensions} {m : Nat}
    (hm : m < size / bd.cols) (s : Grid × List Nat × Rng) :
    (List.range (size / bd.cols)).foldl
      (fun s boxCol => if m = boxCol then
          fillBox s.1 (m * bd.rows) (boxCol * bd.cols) bd s.2.1 s.2.2
        else s) s =
      fillBox s.1 (m * bd.rows) (m * bd.cols) bd s.2.1 s.2.2 :=
  foldl_ite_once hm s

/-- After `fillDiagonalBoxes` on the zero grid the invariant holds for all
diagonal boxes and the digit array is unchanged. -/
theorem fillDiagonalBoxes_spec {size : Nat} {bd : BoxDimensions}
    (hbd : getBoxDimensions size = .ok bd) {digits : List Nat}
    (hdig : digits = (List.range size).map (· + 1)) (rng : Rng) :
    DiagPartial (fillDiagonalBoxes zeroGrid size bd digits rng).1 size bd
      (size / bd.cols) := by
  have hmain : ∀ m, m ≤ size / bd.cols →
      DiagPartial ((List.range m).foldl
        (fun s boxRow =>
          (List.range (size / bd.cols)).foldl
            (fun s boxCol =>
              if boxRow = boxCol then
                fillBox s.1 (boxRow * bd.rows) (boxCol * bd.cols) bd s.2.1 s.2.2
              else s)
            s)
        (zeroGrid, digits, rng)).1 size bd m ∧
      ((List.range m).foldl
        (fun s boxRow =>
          (List.range (size / bd.cols)).foldl
            (fun s boxCol =>
              if boxRow = boxCol then
                fillBox s.1 (boxRow * bd.rows) (boxCol * bd.cols) bd s.2.1 s.2.2
              else s)
            s)
        (zeroGrid, digits, rng)).2.1 = digits := by
    intro m
    induction m with
    | zero => intro _; exact ⟨DiagPartial_zero, rfl⟩
    | succ n ih =>
      intro hn
      obtain ⟨hpart, hdigs⟩ := ih (by omega)
      rw [List.range_succ, List.foldl_append, List.foldl_cons, List.foldl_nil]
      rw [fillDiagonal_inner (by omega)]
      constructor
      · rw [hdigs]
        exact DiagPartial_fillBox hbd hpart digits hdig _
      · rw [hdigs]
        exact fillBox_digits _ _ _ _ _ _
  unfold fillDiagonalBoxes
  exact (hmain (size / bd.cols) (Nat.le_refl _)).1

/-- A successful attempt yields a consistent, in-range, complete grid. -/
theorem oneAttempt_sound {size : Nat} {bd : BoxDimensions}
    (hbd : getBoxDimensions size = .ok bd) {digits : List Nat}
    (hdig : digits = (List.range size).map (· + 1)) {rng : Rng} {g : Grid}
    {ds1 : List Nat} {rng1 : Rng}
    (h : oneAttempt size bd digits rng = (some g, ds1, rng1)) :
    Consistent g size bd ∧ InRange g size ∧ Complete g size := by
  obtain ⟨hsz, hr0, hc0, -, -, -⟩ := bd_geometry hbd
  unfold oneAttempt at h
  have hspec := fillDiagonalBoxes_spec hbd hdig rng
  have hdigs := fillDiagonalBoxes_digits zeroGrid size bd digits rng
  cases hfd : fillDiagonalBoxes zeroGrid size bd digits rng with
  | mk g1 rest =>
    obtain ⟨digits1, rng2⟩ := rest
    rw [hfd] at h hspec hdigs
    dsimp only at h hspec hdigs
    subst hdigs
    obtain ⟨hrange, hcons, -⟩ := hspec
    cases hsolve : solveSudoku (size * size + 1) g1 size bd digits1 rng2 with
    | mk res rng3 =>
      rw [hsolve] at h
      cases res with
      | none => cases h
      | some g2 =>
        injection h with h1 h2
        injection h1 with h1
        subst h1
        exact solveSudoku_sound hr0 hc0 hdig _ g1 rng2 hsolve hcons hrange

/-- A successful `runAttempts` yields a consistent, in-range, complete grid. -/
theorem runAttempts_sound {size : Nat} {bd : BoxDimensions}
    (hbd : getBoxDimensions size = .ok bd) {digits : List Nat}
    (hdig : digits = (List.range size).map (· + 1)) :
    ∀ (k : Nat) (rng : Rng) {g : Grid} {ds1 : List Nat} {rng1 : Rng},
      runAttempts size bd k digits rng = (some g, ds1, rng1) →
      Consistent g size bd ∧ InRange g size ∧ Complete g size := by
  intro k
  induction k with
  | zero =>
    intro rng g ds1 rng1 h
    cases h
  | succ n ih =>
    intro rng g ds1 rng1 h
    rw [runAttempts] at h
    have hdigs := oneAttempt_digits size bd digits rng
    cases ha : oneAttempt size bd digits rng with
    | mk res rest =>
      obtain ⟨ds2, rng2⟩ := rest
      rw [ha] at h hdigs
      dsimp only at hdigs
      subst hdigs
      cases res with
      | some g2 =>
        dsimp only at h
        injection h with h1 h2
        injection h1 with h1
        subst h1
        exact oneAttempt_sound hbd hdig ha
      | none =>
        dsimp only at h
        exact ih rng2 h

/-! ### From consistent + complete + in-range to "each digit exactly once" -/

/-- Number of occurrences of digit `d` in row `r`. -/
def rowOcc (g : Grid) (size r d : Nat) : Nat :=
  ((Finset.range size).filter (fun c => g r c = d)).card

/-- Number of occurrences of digit `d` in column `c`. -/
def colOcc (g : Grid) (size c d : Nat) : Nat :=
  ((Finset.range size).filter (fun r => g r c = d)).card

/-- Number of occurrences of digit `d` in the box with box coordinates
`(bR, bC)`. -/
def boxOcc (g : Grid) (bd : BoxDimensions) (bR bC d : Nat) : Nat :=
  ((Finset.range bd.rows ×ˢ Finset.range bd.cols).filter
    (fun p => g (bR * bd.rows + p.1) (bC * bd.cols + p.2) = d)).card

/-- The specification of a solved grid: every row, every column and every box
contains each digit `1..size` exactly once, and there is no zero cell. -/
def ValidSolution (g : Grid) (size : Nat) (bd : BoxDimensions) : Prop :=
  (∀ r d, r < size → 1 ≤ d → d ≤ size → rowOcc g size r d = 1) ∧
  (∀ c d, c < size → 1 ≤ d → d ≤ size → colOcc g size c d = 1) ∧
  (∀ bR bC d, bR < size / bd.rows → bC < size / bd.cols → 1 ≤ d → d ≤ size →
    boxOcc g bd bR bC d = 1) ∧
  Complete g size

theorem pigeonhole_once {ι : Type} [DecidableEq ι] {s : Finset ι} {f : ι → Nat}
    {size : Nat} (hcard : s.card = size)
    (hrange : ∀ i ∈ s, 1 ≤ f i ∧ f i ≤ size)
    (hinj : ∀ i ∈ s, ∀ j ∈ s, f i = f j → i = j) {d : Nat} (hd1 : 1 ≤ d)
    (hd2 : d ≤ size) : (s.filter (fun i => f i = d)).card = 1 := by
  have hinj2 : Set.InjOn f s := fun i hi j hj => hinj i hi j hj
  have hcardim : (s.image f).card = size := by
    rw [Finset.card_image_of_injOn hinj2, hcard]
  have hsub : s.image f ⊆ Finset.Icc 1 size := by
    intro v hv
    obtain ⟨i, hi, rfl⟩ := Finset.mem_image.mp hv
    rw [Finset.mem_Icc]
    exact hrange i hi
  have hicc : (Finset.Icc 1 size).card = size := by
    rw [Nat.card_Icc]
    omega
  have himg : s.image f = Finset.Icc 1 size :=
    Finset.eq_of_subset_of_card_le hsub (by omega)
  have hdmem : d ∈ s.image f := by
    rw [himg, Finset.mem_Icc]
    exact ⟨hd1, hd2⟩
  obtain ⟨i0, hi0, hfi0⟩ := Finset.mem_image.mp hdmem
  rw [Finset.card_eq_one]
  refine ⟨i0, ?_⟩
  ext j
  simp only [Finset.mem_filter, Finset.mem_singleton]
  constructor
  · rintro ⟨hj, hfj⟩
    exact hinj j hj i0 hi0 (hfj.trans hfi0.symm)
  · rintro rfl
    exact ⟨hi0, hfi0⟩

theorem bd_rows_le {size : Nat} {bd : BoxDimensions}
    (h : getBoxDimensions size = .ok bd) :
    size / bd.rows * bd.rows ≤ size ∧ bd.rows ∣ size ∧ bd.cols ∣ size := by
  rcases getBoxDimensions_cases h with ⟨rfl, rfl⟩ | ⟨rfl, rfl⟩ | ⟨rfl, rfl⟩ <;>
    exact ⟨by decide, by decide, by decide⟩

/-- A consistent, in-range, complete grid is a valid solution. -/
theorem valid_of_complete {g : Grid} {size : Nat} {bd : BoxDimensions}
    (hbd : getBoxDimensions size = .ok bd) (hcons : Consistent g size bd)
    (hrange : InRange g size) (hcomp : Complete g size) :
    ValidSolution g size bd := by
  obtain ⟨hsz, hr0, hc0, -, -, -⟩ := bd_geometry hbd
  obtain ⟨hrle, -, -⟩ := bd_rows_le hbd
  have hmul : bd.rows * bd.cols = size := bd_mul hbd
  refine ⟨?_, ?_, ?_, hcomp⟩
  · -- rows
    intro r d hr hd1 hd2
    refine pigeonhole_once (f := fun c => g r c) (Finset.card_range size) ?_ ?_ hd1 hd2
    · intro c hc
      rw [Finset.mem_range] at hc
      have h1 := hrange r c hr hc
      have h2 := hcomp r c hr hc
      show 1 ≤ g r c ∧ g r c ≤ size
      omega
    · intro c1 hc1 c2 hc2 heq
      rw [Finset.mem_range] at hc1 hc2
      by_contra hne
      exact hcons r c1 r c2 hr hc1 hr hc2
        (by intro hpair; rw [Prod.mk.injEq] at hpair; omega) (Or.inl rfl)
        (hcomp r c1 hr hc1) heq
  · -- columns
    intro c d hc hd1 hd2
    refine pigeonhole_once (f := fun r => g r c) (Finset.card_range size) ?_ ?_ hd1 hd2
    · intro r hr
      rw [Finset.mem_range] at hr
      have h1 := hrange r c hr hc
      have h2 := hcomp r c hr hc
      show 1 ≤ g r c ∧ g r c ≤ size
      omega
    · intro r1 hr1 r2 hr2 heq
      rw [Finset.mem_range] at hr1 hr2
      by_contra hne
      exact hcons r1 c r2 c hr1 hc hr2 hc
        (by intro hpair; rw [Prod.mk.injEq] at hpair; omega) (Or.inr (Or.inl rfl))
        (hcomp r1 c hr1 hc) heq
  · -- boxes
    intro bR bC d hbR hbC hd1 hd2
    have hrowb : ∀ i < bd.rows, bR * bd.rows + i < size := by
      intro i hi
      calc bR * bd.rows + i < bR * bd.rows + bd.rows := by omega
        _ = (bR + 1) * bd.rows := by ring
        _ ≤ size / bd.rows * bd.rows := Nat.mul_le_mul_right _ (by omega)
        _ ≤ size := hrle
    have hcolb : ∀ j < bd.cols, bC * bd.cols + j < size := by
      intro j hj
      obtain ⟨-, -, -, -, hcle, -⟩ := bd_geometry hbd
      calc bC * bd.cols + j < bC * bd.cols + bd.cols := by omega
        _ = (bC + 1) * bd.cols := by ring
        _ ≤ size / bd.cols * bd.cols := Nat.mul_le_mul_right _ (by omega)
        _ ≤ size := hcle
    refine pigeonhole_once
      (f := fun p : Nat × Nat => g (bR * bd.rows + p.1) (bC * bd.cols + p.2))
      ?_ ?_ ?_ hd1 hd2
    · rw [Finset.card_product, Finset.card_range, Finset.card_range, hmul]
    · intro p hp
      rw [Finset.mem_product, Finset.mem_range, Finset.mem_range] at hp
      have h1 := hrange _ _ (hrowb p.1 hp.1) (hcolb p.2 hp.2)
      have h2 := hcomp _ _ (hrowb p.1 hp.1) (hcolb p.2 hp.2)
      show 1 ≤ g (bR * bd.rows + p.1) (bC * bd.cols + p.2) ∧
        g (bR * bd.rows + p.1) (bC * bd.cols + p.2) ≤ size
      omega
    · intro p hp q hq heq
      rw [Finset.mem_product, Finset.mem_range, Finset.mem_range] at hp hq
      by_contra hne
      have hcells : (bR * bd.rows + p.1, bC * bd.cols + p.2) ≠
          (bR * bd.rows + q.1, bC * bd.cols + q.2) := by
        intro hpair
        rw [Prod.mk.injEq] at hpair
        apply hne
        rw [Prod.ext_iff]
        omega
      have hsame : (bR * bd.rows + p.1) / bd.rows = (bR * bd.rows + q.1) / bd.rows ∧
          (bC * bd.cols + p.2) / bd.cols = (bC * bd.cols + q.2) / bd.cols := by
        rw [div_eq_box (Nat.le_add_right _ _) (by omega),
          div_eq_box (Nat.le_add_right _ _) (by omega),
          div_eq_box (Nat.le_add_right _ _) (by omega),
          div_eq_box (Nat.le_add_right _ _) (by omega)]
        exact ⟨rfl, rfl⟩
      exact hcons _ _ _ _ (hrowb p.1 hp.1) (hcolb p.2 hp.2) (hrowb q.1 hq.1)
        (hcolb q.2 hq.2) hcells (Or.inr (Or.inr hsame))
        (hcomp _ _ (hrowb p.1 hp.1) (hcolb p.2 hp.2)) heq

/-! ### Claim C1: every generated solution grid is fully valid -/

/-- C1: whatever the random choices, whenever `generateSudoku` returns a grid
(rather than throwing) on a supported size, every row, every column and every
box of that grid contains each digit `1..size` exactly once — in particular it
has no zero cells.  The cache hypothesis says every cached digit list is the
ascending `[1..n]`, which holds for every reachable cache state. -/
theorem generateSudoku_valid {size : Nat} {bd : BoxDimensions}
    (hbd : getBoxDimensions size = .ok bd) (cache : DigitsCache)
    (hc : CacheOK cache) (rng : Rng) {g : Grid}
    (h : (generateSudoku size cache rng).1 = .ok g) :
    ValidSolution g size bd := by
  have hv : assertValidSize size = .ok () := by
    simp [assertValidSize, isValidSize_of_bd hbd]
  obtain ⟨hds, -⟩ := getDigits_spec hc size
  unfold generateSudoku at h
  rw [hv, hbd] at h
  dsimp only at h
  cases hrun : runAttempts size bd maxAttempts (getDigits cache size).1 rng with
  | mk res rest =>
    obtain ⟨ds1, rng1⟩ := rest
    rw [hrun] at h
    cases res with
    | none => cases h
    | some g2 =>
      dsimp only at h
      injection h with h1
      subst h1
      obtain ⟨hcons, hrange, hcomp⟩ :=
        runAttempts_sound hbd hds maxAttempts rng hrun
      exact valid_of_complete hbd hcons hrange hcomp

/-- A random stream on which `generateSudoku 4` succeeds on the first
attempt. -/
def sampleRng4 : Rng := [3, 1, 2, 0, 2, 2, 1, 0, 1, 0, 1, 2, 0, 1]

/-- Witness for C1 at a concrete run. -/
theorem generateSudoku_valid_witness :
    CacheOK ([] : DigitsCache) ∧
      ∃ g, (generateSudoku 4 [] sampleRng4).1 = .ok g ∧ ValidSolution g 4 ⟨2, 2⟩ := by
  have hsome : ((generateSudoku 4 [] sampleRng4).1.toOption).isSome = true := by
    decide
  rw [Option.isSome_iff_exists] at hsome
  obtain ⟨g, hg⟩ := hsome
  have hok : (generateSudoku 4 [] sampleRng4).1 = .ok g := by
    cases he : (generateSudoku 4 [] sampleRng4).1 with
    | error e =>
      rw [he] at hg
      simp [Except.toOption] at hg
    | ok g2 =>
      rw [he] at hg
      simp only [Except.toOption] at hg
      injection hg with hg1
      rw [hg1]
  exact ⟨fun p hp => absurd hp (List.not_mem_nil p), g, hok,
    generateSudoku_valid (by rfl) []
      (fun p hp => absurd hp (List.not_mem_nil p)) sampleRng4 hok⟩

/-! ### Claim C9: the retry loop -/

/-- The digit list and random stream after `i` failed attempts (and `none` if
one of those first `i` attempts succeeded instead). -/
def stateAfterFailures (size : Nat) (boxDims : BoxDimensions) :
    Nat → List Nat × Rng → Option (List Nat × Rng)
  | 0, s => some s
  | i + 1, s =>
    match oneAttempt size boxDims s.1 s.2 with
    | (none, ds1, rng1) => stateAfterFailures size boxDims i (ds1, rng1)
    | (some _, _, _) => none

/-- The run's first success is at attempt `i` (0-based) and produces `g`. -/
def firstSuccessAt (size : Nat) (boxDims : BoxDimensions) (s0 : List Nat × Rng)
    (i : Nat) (g : Grid) : Prop :=
  ∃ s, stateAfterFailures size boxDims i s0 = some s ∧
    (oneAttempt size boxDims s.1 s.2).1 = some g

theorem runAttempts_none_iff {size : Nat} {bd : BoxDimensions} :
    ∀ (k : Nat) (s : List Nat × Rng),
      (runAttempts size bd k s.1 s.2).1 = none ↔
        ∃ t, stateAfterFailures size bd k s = some t := by
  intro k
  induction k with
  | zero =>
    intro s
    constructor
    · intro _
      exact ⟨s, rfl⟩
    · intro _
      rfl
  | succ n ih =>
    intro s
    rw [runAttempts, stateAfterFailures]
    cases ha : oneAttempt size bd s.1 s.2 with
    | mk res rest =>
      obtain ⟨ds1, rng1⟩ := rest
      cases res with
      | some g =>
        dsimp only
        constructor
        · intro h
          cases h
        · intro ⟨t, ht⟩
          cases ht
      | none =>
        dsimp only
        exact ih (ds1, rng1)

theorem runAttempts_some_first {size : Nat} {bd : BoxDimensions} :
    ∀ (k : Nat) (s : List Nat × Rng) {g : Grid} {ds1 : List Nat} {rng1 : Rng},
      runAttempts size bd k s.1 s.2 = (some g, ds1, rng1) →
      ∃ i, i < k ∧ firstSuccessAt size bd s i g := by
  intro k
  induction k with
  | zero =>
    intro s g ds1 rng1 h
    cases h
  | succ n ih =>
    intro s g ds1 rng1 h
    rw [runAttempts] at h
    cases ha : oneAttempt size bd s.1 s.2 with
    | mk res rest =>
      obtain ⟨ds2, rng2⟩ := rest
      rw [ha] at h
      cases res with
      | some g2 =>
        dsimp only at h
        injection h with h1
        injection h1 with h1
        subst h1
        refine ⟨0, by omega, s, rfl, ?_⟩
        rw [ha]
      | none =>
        dsimp only at h
        obtain ⟨i, hik, hfs⟩ := ih (ds2, rng2) h
        refine ⟨i + 1, by omega, ?_⟩
        obtain ⟨t, ht, hsucc⟩ := hfs
        refine ⟨t, ?_, hsucc⟩
        rw [stateAfterFailures, ha]
        exact ht

/-- C9: on a supported size, `generateSudoku` performs at most `maxAttempts = 5`
complete attempts; it throws `GenerationFailureError` exactly when all 5
attempts fail, and when it returns a grid, that grid is the one produced by the
first successful attempt and is a fully valid solution — never a partially
filled or invalid grid. -/
theorem generateSudoku_attempts {size : Nat} {bd : BoxDimensions}
    (hbd : getBoxDimensions size = .ok bd) (cache : DigitsCache)
    (hc : CacheOK cache) (rng : Rng) :
    maxAttempts = 5 ∧
    ((generateSudoku size cache rng).1 = .error .generationFailure ↔
      ∃ s5, stateAfterFailures size bd maxAttempts ((getDigits cache size).1, rng) =
        some s5) ∧
    (∀ g, (generateSudoku size cache rng).1 = .ok g →
      (∃ i, i < maxAttempts ∧
        firstSuccessAt size bd ((getDigits cache size).1, rng) i g) ∧
      ValidSolution g size bd) := by
  have hv : assertValidSize size = .ok () := by
    simp [assertValidSize, isValidSize_of_bd hbd]
  obtain ⟨hds, -⟩ := getDigits_spec hc size
  refine ⟨rfl, ?_, ?_⟩
  · have hiff := @runAttempts_none_iff size bd maxAttempts
      ((getDigits cache size).1, rng)
    dsimp only at hiff
    unfold generateSudoku
    rw [hv, hbd]
    dsimp only
    cases hrun : runAttempts size bd maxAttempts (getDigits cache size).1 rng with
    | mk res rest =>
      obtain ⟨ds1, rng1⟩ := rest
      rw [hrun] at hiff
      cases res with
      | some g =>
        dsimp only
        constructor
        · intro hcontra
          cases hcontra
        · intro hex
          have hnone := hiff.mpr hex
          cases hnone
      | none =>
        dsimp only
        constructor
        · intro _
          exact hiff.mp rfl
        · intro _
          rfl
  · intro g hok
    constructor
    · unfold generateSudoku at hok
      rw [hv, hbd] at hok
      dsimp only at hok
      cases hrun : runAttempts size bd maxAttempts (getDigits cache size).1 rng with
      | mk res rest =>
        obtain ⟨ds1, rng1⟩ := rest
        rw [hrun] at hok
        cases res with
        | none => cases hok
        | some g2 =>
          dsimp only at hok
          injection hok with h1
          subst h1
          exact runAttempts_some_first maxAttempts ((getDigits cache size).1, rng) hrun
    · exact generateSudoku_valid hbd cache hc rng hok

/-- Witness for C9 at a concrete run. -/
theorem generateSudoku_attempts_witness :
    CacheOK ([] : DigitsCache) ∧
      (maxAttempts = 5 ∧
        ((generateSudoku 4 [] sampleRng4).1 = .error .generationFailure ↔
          ∃ s5, stateAfterFailures 4 ⟨2, 2⟩ maxAttempts
            ((getDigits [] 4).1, sampleRng4) = some s5) ∧
        (∀ g, (generateSudoku 4 [] sampleRng4).1 = .ok g →
          (∃ i, i < maxAttempts ∧
            firstSuccessAt 4 ⟨2, 2⟩ ((getDigits [] 4).1, sampleRng4) i g) ∧
          ValidSolution g 4 ⟨2, 2⟩)) :=
  ⟨fun p hp => absurd hp (List.not_mem_nil p),
    generateSudoku_attempts (by rfl) []
      (fun p hp => absurd hp (List.not_mem_nil p)) sampleRng4⟩

/-! ### Claim C8: what `findBestCell` returns -/

/-- A partial 4×4 grid on which the first empty cell `(0,0)` has exactly one
legal candidate while the later empty cell `(1,3)` has none. -/
def shadowGrid4 : Grid :=
  gridOfLists [[0, 2, 3, 4], [0, 0, 0, 0], [0, 0, 0, 1], [0, 0, 0, 2]]

/-- C8 counterexample: some empty cell (`(1,3)`) has zero candidates, yet
`findBestCell` does not return a zero-candidate cell — it stops earlier, at the
first cell whose candidate count is ≤ 1 (here `(0,0)` with the single
candidate 1). -/
theorem findBestCell_zero_shadowed :
    shadowGrid4 1 3 = 0 ∧
      getCandidates shadowGrid4 1 3 4 ⟨2, 2⟩ ((List.range 4).map (· + 1)) = [] ∧
      findBestCell shadowGrid4 4 ⟨2, 2⟩ ((List.range 4).map (· + 1)) [] =
        (some ⟨0, 0, [1]⟩, []) := by
  refine ⟨by decide, by decide, by decide⟩

/-- The scan-first rule: if the not-yet-scanned cells contain an empty cell
with at most one candidate, the loop stops at the first such cell and returns
it (with a permutation of its candidate list). -/
theorem findBestCellLoop_first {g : Grid} {size : Nat} {bd : BoxDimensions}
    {digits : List Nat} :
    ∀ (cells : List (Nat × Nat)) (best : Option CandidateCell) (bc : Nat)
      (rng : Rng) {p0 : Nat × Nat},
      2 ≤ bc →
      ((cells.filter (fun p => g p.1 p.2 = 0)).find?
        (fun p => (getCandidates g p.1 p.2 size bd digits).length ≤ 1)) = some p0 →
      ∃ sh rng1,
        findBestCellLoop g size bd digits cells best bc rng =
          (some ⟨p0.1, p0.2, sh⟩, rng1) ∧
        List.Perm sh (getCandidates g p0.1 p0.2 size bd digits) := by
  intro cells
  induction cells with
  | nil =>
    intro best bc rng p0 hbc hfind
    simp at hfind
  | cons p rest ih =>
    intro best bc rng p0 hbc hfind
    obtain ⟨row, col⟩ := p
    rw [findBestCellLoop]
    dsimp only
    by_cases hz : g row col = 0
    · rw [List.filter_cons_of_pos (by simpa using hz)] at hfind
      by_cases hle : (getCandidates g row col size bd digits).length ≤ 1
      · rw [List.find?_cons_of_pos _ (by simpa using hle)] at hfind
        injection hfind with hfind
        subst hfind
        rw [if_neg (by simpa using hz)]
        by_cases h0 : (getCandidates g row col size bd digits).length = 0
        · rw [if_pos h0]
          exact ⟨_, rng, rfl, List.Perm.refl _⟩
        · rw [if_neg h0]
          have h1 : (getCandidates g row col size bd digits).length = 1 := by omega
          rw [if_pos (by omega), if_pos h1]
          exact ⟨_, _, rfl, shuffleArray_perm _ _⟩
      · rw [List.find?_cons_of_neg _ (by simpa using hle)] at hfind
        rw [if_neg (by simpa using hz)]
        rw [if_neg (by omega)]
        by_cases hlt : (getCandidates g row col size bd digits).length < bc
        · rw [if_pos hlt, if_neg (by omega)]
          exact ih _ _ _ (by omega) hfind
        · rw [if_neg hlt]
          exact ih _ _ _ hbc hfind
    · rw [List.filter_cons_of_neg (by simpa using hz)] at hfind
      rw [if_pos (by simpa using hz)]
      exact ih _ _ _ hbc hfind

/-- The minimum-candidates rule: if no remaining empty cell has ≤ 1
candidates, the returned cell's candidate count is at most the running best
and at most the count of every remaining empty cell. -/
theorem findBestCellLoop_min {g : Grid} {size : Nat} {bd : BoxDimensions}
    {digits : List Nat} :
    ∀ (cells : List (Nat × Nat)) (best : Option CandidateCell) (bc : Nat)
      (rng : Rng),
      (∀ p ∈ cells, p.1 < size ∧ p.2 < size) →
      ((cells.filter (fun p => g p.1 p.2 = 0)).find?
        (fun p => (getCandidates g p.1 p.2 size bd digits).length ≤ 1)) = none →
      ((best = none ∧ bc = digits.length + 1) ∨
        (∃ b, best = some b ∧ CellOK g size bd digits b ∧
          bc = (getCandidates g b.row b.col size bd digits).length ∧ 2 ≤ bc)) →
      ∀ cell rng1,
        findBestCellLoop g size bd digits cells best bc rng = (some cell, rng1) →
        CellOK g size bd digits cell ∧
        (getCandidates g cell.row cell.col size bd digits).length ≤ bc ∧
        ∀ q ∈ cells, g q.1 q.2 = 0 →
          (getCandidates g cell.row cell.col size bd digits).length ≤
            (getCandidates g q.1 q.2 size bd digits).length := by
  intro cells
  induction cells with
  | nil =>
    intro best bc rng hb hfind hinv cell rng1 h
    rw [findBestCellLoop] at h
    injection h with h1 h2
    rcases hinv with ⟨rfl, -⟩ | ⟨b, rfl, hok, hbc, -⟩
    · cases h1
    · injection h1 with h1
      subst h1
      exact ⟨hok, by omega, fun q hq => absurd hq (List.not_mem_nil q)⟩
  | cons p rest ih =>
    intro best bc rng hb hfind hinv cell rng1 h
    obtain ⟨row, col⟩ := p
    obtain ⟨hrow, hcol⟩ := hb (row, col) (List.mem_cons_self _ _)
    have hbrest := fun q hq => hb q (List.mem_cons_of_mem _ hq)
    rw [findBestCellLoop] at h
    dsimp only at h
    by_cases hz : g row col = 0
    · rw [List.filter_cons_of_pos (by simpa using hz)] at hfind
      have hge2 : 2 ≤ (getCandidates g row col size bd digits).length := by
        by_contra hcon
        rw [List.find?_cons_of_pos _ (by simp; omega)] at hfind
        cases hfind
      rw [List.find?_cons_of_neg _ (by simp; omega)] at hfind
      rw [if_neg (by simpa using hz)] at h
      rw [if_neg (by omega)] at h
      by_cases hlt : (getCandidates g row col size bd digits).length < bc
      · rw [if_pos hlt, if_neg (by omega)] at h
        obtain ⟨hok, hle, hmin⟩ := ih _ _ _ hbrest hfind
          (Or.inr ⟨_, rfl, ⟨hrow, hcol, hz, shuffleArray_perm _ _⟩, rfl, hge2⟩)
          cell rng1 h
        have hle2 : (getCandidates g cell.row cell.col size bd digits).length ≤
            (getCandidates g row col size bd digits).length := hle
        refine ⟨hok, by omega, ?_⟩
        intro q hq hqz
        rcases List.mem_cons.mp hq with hqe | hq2
        · have : q.1 = row ∧ q.2 = col := by
            rw [hqe]
            exact ⟨rfl, rfl⟩
          rw [this.1, this.2]
          omega
        · exact hmin q hq2 hqz
      · rw [if_neg hlt] at h
        obtain ⟨hok, hle, hmin⟩ := ih _ _ _ hbrest hfind hinv cell rng1 h
        refine ⟨hok, hle, ?_⟩
        intro q hq hqz
        rcases List.mem_cons.mp hq with hqe | hq2
        · have : q.1 = row ∧ q.2 = col := by
            rw [hqe]
            exact ⟨rfl, rfl⟩
          rw [this.1, this.2]
          omega
        · exact hmin q hq2 hqz
    · rw [List.filter_cons_of_neg (by simpa using hz)] at hfind
      rw [if_pos (by simpa using hz)] at h
      obtain ⟨hok, hle, hmin⟩ := ih _ _ _ hbrest hfind hinv cell rng1 h
      refine ⟨hok, hle, ?_⟩
      intro q hq hqz
      rcases List.mem_cons.mp hq with hqe | hq2
      · exfalso
        apply hz
        have : q.1 = row ∧ q.2 = col := by
          rw [hqe]
          exact ⟨rfl, rfl⟩
        rw [← this.1, ← this.2]
        exact hqz
      · exact hmin q hq2 hqz

/-- C8 amended: on a grid with an empty cell, `findBestCell` stops at the
row-major-first empty cell whose candidate count is at most 1 — returning it
with an empty candidate list when the count is 0 (immediate failure) and with
its single candidate when the count is 1 — so a later zero-candidate cell is
shadowed by an earlier one-candidate cell; when no empty cell has ≤ 1
candidates it returns an empty cell of minimal candidate count among all empty
cells, the returned candidate list being a permutation of that cell's legal
candidates. -/
theorem findBestCell_characterization (g : Grid) (size : Nat)
    (bd : BoxDimensions) (digits : List Nat) (rng : Rng)
    (hdigits : digits ≠ []) :
    (∀ p0 : Nat × Nat,
      (((allCells size).filter (fun p => g p.1 p.2 = 0)).find?
        (fun p => (getCandidates g p.1 p.2 size bd digits).length ≤ 1)) = some p0 →
      ∃ sh rng1,
        findBestCell g size bd digits rng = (some ⟨p0.1, p0.2, sh⟩, rng1) ∧
        List.Perm sh (getCandidates g p0.1 p0.2 size bd digits) ∧
        ((getCandidates g p0.1 p0.2 size bd digits).length = 0 → sh = [])) ∧
    ((((allCells size).filter (fun p => g p.1 p.2 = 0)).find?
        (fun p => (getCandidates g p.1 p.2 size bd digits).length ≤ 1)) = none →
      ∀ p1 ∈ allCells size, g p1.1 p1.2 = 0 →
      ∃ cell rng1, findBestCell g size bd digits rng = (some cell, rng1) ∧
        CellOK g size bd digits cell ∧
        ∀ q ∈ allCells size, g q.1 q.2 = 0 →
          (getCandidates g cell.row cell.col size bd digits).length ≤
            (getCandidates g q.1 q.2 size bd digits).length) := by
  have hlen : 1 ≤ digits.length := by
    cases digits with
    | nil => exact absurd rfl hdigits
    | cons a t => simp
  constructor
  · intro p0 hfind
    obtain ⟨sh, rng1, heq, hperm⟩ := findBestCellLoop_first (allCells size) none
      (digits.length + 1) rng (by omega) hfind
    refine ⟨sh, rng1, heq, hperm, ?_⟩
    intro h0
    rw [← List.length_eq_zero]
    rw [hperm.length_eq]
    exact h0
  · intro hfind p1 hp1 hp1z
    cases hres : findBestCell g size bd digits rng with
    | mk res rng1 =>
      cases res with
      | none =>
        exfalso
        have hall := (findBestCellLoop_none (allCells size) none
          (digits.length + 1) rng (fun _ => rfl) hres).2
        exact hall p1 hp1 hp1z
      | some cell =>
        obtain ⟨hok, -, hmin⟩ := findBestCellLoop_min (allCells size) none
          (digits.length + 1) rng (fun p hp => mem_allCells hp) hfind
          (Or.inl ⟨rfl, rfl⟩) cell rng1 hres
        exact ⟨cell, rng1, rfl, hok, hmin⟩

/-- Witness for C8 (amended) at a concrete grid. -/
theorem findBestCell_characterization_witness :
    ((List.range 4).map (· + 1) ≠ []) ∧
      ∃ sh rng1,
        findBestCell shadowGrid4 4 ⟨2, 2⟩ ((List.range 4).map (· + 1)) [] =
          (some ⟨(0, 0).1, (0, 0).2, sh⟩, rng1) ∧
        List.Perm sh (getCandidates shadowGrid4 (0, 0).1 (0, 0).2 4 ⟨2, 2⟩
          ((List.range 4).map (· + 1))) ∧
        ((getCandidates shadowGrid4 (0, 0).1 (0, 0).2 4 ⟨2, 2⟩
            ((List.range 4).map (· + 1))).length = 0 → sh = []) :=
  ⟨by decide,
    (findBestCell_characterization shadowGrid4 4 ⟨2, 2⟩ _ [] (by decide)).1
      (0, 0) (by decide)⟩

/-! ### Claim C3, amended part: exact accounting of the removal count -/

/-- Total number of entries left in the step-4 pools. -/
def poolCount (size : Nat) (s : S4) : Nat :=
  ((List.range size).map (fun j => (s.pbc j).length)).sum

/-- In a list whose entries have pairwise distinct first components, every
entry surviving the removal of index `i` differs in first component from the
removed entry. -/
theorem pairwise_eraseIdx_ne {l : List Pos4}
    (hp : l.Pairwise (fun a b => a.1 ≠ b.1)) :
    ∀ {i : Nat} (hi : i < l.length) (f : Pos4), f ∈ l.eraseIdx i →
      f.1 ≠ (l.get ⟨i, hi⟩).1 := by
  induction l with
  | nil => intro i hi; simp at hi
  | cons a t ih =>
    intro i hi f hf
    obtain ⟨ha, ht⟩ := List.pairwise_cons.mp hp
    cases i with
    | zero =>
      simp only [List.eraseIdx] at hf
      exact fun hcon => (ha f hf) hcon.symm
    | succ n =>
      simp only [List.eraseIdx] at hf
      rcases List.mem_cons.mp hf with rfl | hf2
      · exact ha _ (t.get_mem _ _)
      · exact ih ht _ f hf2

/-- The step-4 invariant: pools hold in-bounds, not-yet-removed cells of their
own column with pairwise distinct rows; `columnOrder` is a permutation of the
columns; the removed-set cardinality and the pool size track `removedCount`
exactly. -/
def S4inv (size goal R0 P0 : Nat) (s : S4) : Prop :=
  (∀ j, j < size → (s.pbc j).Pairwise (fun a b => a.1 ≠ b.1)) ∧
  (∀ j, j < size → ∀ e ∈ s.pbc j, e.1 < size ∧ e.2.1 = j ∧
    (e.1, j) ∉ s.st.removed) ∧
  List.Perm s.columnOrder (List.range size) ∧
  s.st.removed.card = R0 + s.removedCount ∧
  poolCount size s + s.removedCount = P0 ∧
  s.removedCount ≤ goal

theorem sum_map_range_update {size col : Nat} (hcol : col < size)
    (f g : Nat → Nat) (hne : ∀ j, j ≠ col → g j = f j) (hc : g col + 1 = f col) :
    ((List.range size).map (fun j => g j)).sum + 1 =
      ((List.range size).map (fun j => f j)).sum := by
  have hbridge : ∀ (h : Nat → Nat) (n : Nat),
      ((List.range n).map (fun j => h j)).sum = ∑ j ∈ Finset.range n, h j := by
    intro h n
    induction n with
    | zero => rfl
    | succ m ih =>
      rw [List.range_succ, List.map_append, List.sum_append,
        Finset.sum_range_succ, ih]
      simp
  rw [hbridge, hbridge]
  have hmem : col ∈ Finset.range size := Finset.mem_range.mpr hcol
  rw [Finset.sum_eq_sum_diff_singleton_add hmem g,
    Finset.sum_eq_sum_diff_singleton_add hmem f]
  have hcongr : ∑ j ∈ Finset.range size \ {col}, g j =
      ∑ j ∈ Finset.range size \ {col}, f j := by
    apply Finset.sum_congr rfl
    intro j hj
    rw [Finset.mem_sdiff, Finset.mem_singleton] at hj
    exact hne j hj.2
  omega

theorem S4inv_step4Body {boxDims : BoxDimensions} {size goal R0 P0 : Nat}
    {s : S4} (hinv : S4inv size goal R0 P0 s) {col : Nat} (hcol : col < size)
    (hne : s.pbc col ≠ []) (hrc : s.removedCount < goal) :
    S4inv size goal R0 P0 (step4Body boxDims size s col) ∧
      (step4Body boxDims size s col).removedCount = s.removedCount + 1 := by
  obtain ⟨hpw, hent, hperm, hcard, hpool, hle⟩ := hinv
  have hlen : 0 < (s.pbc col).length := List.length_pos.mpr hne
  have hbi : bestOf5 s.st.spatialRegionCounts (s.pbc col) < (s.pbc col).length :=
    bestOf5_lt hne
  set bi := bestOf5 s.st.spatialRegionCounts (s.pbc col) with hbidef
  set e := (s.pbc col).getD bi (0, 0, 0, 0) with hedef
  have hemem : e ∈ s.pbc col := getD_mem_of_lt hbi _
  obtain ⟨he1, he2, he3⟩ := hent col hcol e hemem
  have hget : (s.pbc col).get ⟨bi, hbi⟩ = e := by
    rw [hedef, List.getD_eq_getElem _ _ hbi]
    rfl
  -- the removal is genuine
  have hnotmem : (e.1, e.2.1) ∉ s.st.removed := by
    rw [he2]
    exact he3
  have hrem : removeCell boxDims size s.st e.1 e.2.1 =
      { s.st with
        puzzle := setCell s.st.puzzle e.1 e.2.1 0
        removed := insert (e.1, e.2.1) s.st.removed
        rowRemovalCounts := bump s.st.rowRemovalCounts e.1
        colRemovalCounts := bump s.st.colRemovalCounts e.2.1
        boxRemovalCounts := bump s.st.boxRemovalCounts
          (getBoxIndex e.1 e.2.1 boxDims size)
        spatialRegionCounts := bump s.st.spatialRegionCounts
          (getSpatialRegion e.1 e.2.1 size)
        rowsWithRemovals := insert e.1 s.st.rowsWithRemovals
        colsWithRemovals := insert e.2.1 s.st.colsWithRemovals
        boxesWithRemovals := insert (getBoxIndex e.1 e.2.1 boxDims size)
          s.st.boxesWithRemovals } := by
    rw [removeCell, if_neg hnotmem]
  refine ⟨⟨?_, ?_, ?_, ?_, ?_, ?_⟩, rfl⟩
  · -- pairwise
    intro j hj
    show (if j = col then (s.pbc col).eraseIdx bi else s.pbc j).Pairwise _
    split
    · exact (hpw col hcol).sublist (List.eraseIdx_sublist _ _)
    · exact hpw j hj
  · -- entries
    intro j hj f hf
    simp only [step4Body] at hf
    by_cases hjc : j = col
    · subst hjc
      rw [if_pos rfl] at hf
      have hfc : f ∈ s.pbc j := List.eraseIdx_subset _ _ hf
      obtain ⟨hf1, hf2, hf3⟩ := hent j hj f hfc
      refine ⟨hf1, hf2, ?_⟩
      show (f.1, j) ∉ (removeCell boxDims size s.st e.1 e.2.1).removed
      rw [hrem]
      dsimp only
      rw [Finset.mem_insert]
      intro hcon
      rcases hcon with hcon | hcon
      · have hfe : f.1 ≠ e.1 := by
          have := pairwise_eraseIdx_ne (hpw j hj) hbi f hf
          rw [hget] at this
          exact this
        rw [Prod.mk.injEq] at hcon
        exact hfe hcon.1
      · exact hf3 hcon
    · rw [if_neg hjc] at hf
      obtain ⟨hf1, hf2, hf3⟩ := hent j hj f hf
      refine ⟨hf1, hf2, ?_⟩
      show (f.1, j) ∉ (removeCell boxDims size s.st e.1 e.2.1).removed
      rw [hrem]
      dsimp only
      rw [Finset.mem_insert]
      intro hcon
      rcases hcon with hcon | hcon
      · rw [Prod.mk.injEq] at hcon
        rw [he2] at hcon
        exact hjc hcon.2
      · exact hf3 hcon
  · -- columnOrder permutation
    show List.Perm (s.columnOrder.insertionSort _) _
    exact (List.perm_insertionSort _ _).trans hperm
  · -- removed cardinality
    show (removeCell boxDims size s.st e.1 e.2.1).removed.card = R0 + (s.removedCount + 1)
    rw [hrem]
    dsimp only
    rw [Finset.card_insert_of_not_mem hnotmem, hcard]
    omega
  · -- pool conservation
    show poolCount size (step4Body boxDims size s col) + (s.removedCount + 1) = P0
    have hup : poolCount size (step4Body boxDims size s col) + 1 = poolCount size s := by
      unfold poolCount
      refine sum_map_range_update hcol (fun j => (s.pbc j).length)
        (fun j => ((step4Body boxDims size s col).pbc j).length) ?_ ?_
      · intro j hj
        show (if j = col then _ else s.pbc j).length = _
        rw [if_neg hj]
      · show (if col = col then (s.pbc col).eraseIdx bi else s.pbc col).length + 1 =
          (s.pbc col).length
        rw [if_pos rfl, List.length_eraseIdx_of_lt hbi]
        omega
    omega
  · show s.removedCount + 1 ≤ goal
    omega

theorem step4Pass_spec {boxDims : BoxDimensions} {size goal R0 P0 : Nat}
    (hsz : 0 < size) :
    ∀ (m k : Nat) (s : S4) (b : Bool), S4inv size goal R0 P0 s →
      S4inv size goal R0 P0 (step4Pass boxDims size goal m k s b).1 ∧
      s.removedCount ≤ (step4Pass boxDims size goal m k s b).1.removedCount ∧
      (b = true → (step4Pass boxDims size goal m k s b).2 = true) ∧
      ((step4Pass boxDims size goal m k s b).2 = false →
        (step4Pass boxDims size goal m k s b).1 = s) ∧
      ((step4Pass boxDims size goal m k s b).2 = true → b = false →
        s.removedCount + 1 ≤ (step4Pass boxDims size goal m k s b).1.removedCount) := by
  intro m
  induction m with
  | zero =>
    intro k s b hinv
    refine ⟨hinv, Nat.le_refl _, fun h => h, fun _ => rfl, ?_⟩
    intro h1 h2
    have h3 : b = true := h1
    rw [h2] at h3
    cases h3
  | succ n ih =>
    intro k s b hinv
    unfold step4Pass
    dsimp only
    split
    · refine ⟨hinv, Nat.le_refl _, fun h => h, fun _ => rfl, ?_⟩
      intro h1 h2
      have h3 : b = true := h1
      rw [h2] at h3
      cases h3
    · split
      · exact ih (k + 1) s b hinv
      · rename_i hgoal hne
        have hcollt : s.columnOrder.getD k 0 < size := by
          rcases Nat.lt_or_ge k s.columnOrder.length with hk | hk
          · exact List.mem_range.mp (hinv.2.2.1.mem_iff.mp (getD_mem_of_lt hk 0))
          · rw [List.getD_eq_default _ _ hk]
            exact hsz
        have hcpne : s.pbc (s.columnOrder.getD k 0) ≠ [] := by
          intro hnil
          rw [hnil] at hne
          simp at hne
        have hrc : s.removedCount < goal := by omega
        obtain ⟨hinv1, hinc⟩ := @S4inv_step4Body boxDims size goal R0 P0 s hinv _ hcollt hcpne hrc
        obtain ⟨ha, hb2, hc, hd, he⟩ := ih (k + 1) _ true hinv1
        refine ⟨ha, ?_, fun _ => hc rfl, ?_, ?_⟩
        · omega
        · intro hfalse
          rw [hc rfl] at hfalse
          cases hfalse
        · intro _ _
          omega

theorem step4Pass_empty {boxDims : BoxDimensions} {size goal R0 P0 : Nat}
    (hsz : 0 < size) :
    ∀ (m k : Nat) (s : S4), S4inv size goal R0 P0 s →
      (step4Pass boxDims size goal m k s false).2 = false →
      goal ≤ s.removedCount ∨
        ∀ idx, k ≤ idx → idx < k + m →
          (s.pbc (s.columnOrder.getD idx 0)).length = 0 := by
  intro m
  induction m with
  | zero =>
    intro k s hinv h
    right
    intro idx h1 h2
    omega
  | succ n ih =>
    intro k s hinv h
    unfold step4Pass at h
    dsimp only at h
    split at h
    · left
      omega
    · split at h
      · rename_i hgoal hlen
        rcases ih (k + 1) s hinv h with hl | hr
        · exact Or.inl hl
        · right
          intro idx h1 h2
          rcases Nat.eq_or_lt_of_le h1 with rfl | hgt
          · simpa using hlen
          · exact hr idx hgt (by omega)
      · rename_i hgoal hne
        exfalso
        have hcollt : s.columnOrder.getD k 0 < size := by
          rcases Nat.lt_or_ge k s.columnOrder.length with hk | hk
          · exact List.mem_range.mp (hinv.2.2.1.mem_iff.mp (getD_mem_of_lt hk 0))
          · rw [List.getD_eq_default _ _ hk]
            exact hsz
        have hcpne : s.pbc (s.columnOrder.getD k 0) ≠ [] := by
          intro hnil
          rw [hnil] at hne
          simp at hne
        have hrc : s.removedCount < goal := by omega
        obtain ⟨hinv1, -⟩ := @S4inv_step4Body boxDims size goal R0 P0 s hinv _ hcollt hcpne hrc
        have htrue := (@step4Pass_spec boxDims size goal R0 P0 hsz n (k + 1) _ true hinv1).2.2.1 rfl
        rw [htrue] at h
        cases h

theorem sum_map_range {f : Nat → Nat} {n : Nat} :
    ((List.range n).map (fun j => f j)).sum = ∑ j ∈ Finset.range n, f j := by
  induction n with
  | zero => rfl
  | succ m ih =>
    rw [List.range_succ, List.map_append, List.sum_append,
      Finset.sum_range_succ, ih]
    simp

theorem step4While_spec {boxDims : BoxDimensions} {size goal R0 P0 : Nat}
    (hsz : 0 < size) :
    ∀ (fuel : Nat) (s : S4), S4inv size goal R0 P0 s →
      goal ≤ s.removedCount + fuel →
      S4inv size goal R0 P0 (step4While boxDims size goal fuel s) ∧
      (step4While boxDims size goal fuel s).removedCount =
        min goal (s.removedCount + poolCount size s) := by
  intro fuel
  induction fuel with
  | zero =>
    intro s hinv hfuel
    have hle := hinv.2.2.2.2.2
    rw [step4While]
    refine ⟨hinv, ?_⟩
    omega
  | succ n ih =>
    intro s hinv hfuel
    rw [step4While]
    split
    · rename_i hlt
      obtain ⟨hinv1, hmono, -, hsame, hincr⟩ :=
        @step4Pass_spec boxDims size goal R0 P0 hsz size 0 s false hinv
      generalize hres : step4Pass boxDims size goal size 0 s false = res at *
      obtain ⟨s1, fa⟩ := res
      dsimp only at *
      cases fa with
      | true =>
        rw [if_pos rfl]
        have hinc : s.removedCount + 1 ≤ s1.removedCount := hincr rfl rfl
        obtain ⟨hinv2, hcount⟩ := ih s1 hinv1 (by omega)
        refine ⟨hinv2, ?_⟩
        rw [hcount]
        have hc1 : poolCount size s1 + s1.removedCount = P0 := hinv1.2.2.2.2.1
        have hc0 : poolCount size s + s.removedCount = P0 := hinv.2.2.2.2.1
        have : s1.removedCount + poolCount size s1 =
            s.removedCount + poolCount size s := by omega
        rw [this]
      | false =>
        rw [if_neg (by simp)]
        have hseq : s1 = s := hsame rfl
        subst hseq
        refine ⟨hinv, ?_⟩
        have hempty := @step4Pass_empty boxDims size goal R0 P0 hsz size 0 s1 hinv
        rw [hres] at hempty
        have hall := hempty rfl
        rcases hall with hge | hcols
        · omega
        · have hpc : poolCount size s1 = 0 := by
            unfold poolCount
            apply List.sum_eq_zero
            intro x hx
            rw [List.mem_map] at hx
            obtain ⟨j, hj, rfl⟩ := hx
            rw [List.mem_range] at hj
            have hjmem : j ∈ s1.columnOrder :=
              hinv.2.2.1.mem_iff.mpr (List.mem_range.mpr hj)
            obtain ⟨i, hi, hget⟩ := List.mem_iff_getElem.mp hjmem
            have hilt : i < size := by
              have := hinv.2.2.1.length_eq
              rw [List.length_range] at this
              omega
            have := hcols i (Nat.zero_le _) (by omega)
            rw [List.getD_eq_getElem _ _ hi, hget] at this
            exact this
          rw [hpc]
          have := hinv.2.2.2.2.2
          omega
    · rename_i hge
      have := hinv.2.2.2.2.2
      refine ⟨hinv, ?_⟩
      omega

/-- Filtering `List.range n` counts the same elements as filtering
`Finset.range n`. -/
theorem length_filter_range {n : Nat} (p : Nat → Prop) [DecidablePred p] :
    ((List.range n).filter (fun i => decide (p i))).length =
      ((Finset.range n).filter p).card := by
  induction n with
  | zero => rfl
  | succ m ih =>
    rw [List.range_succ, List.filter_append, List.length_append, ih,
      Finset.range_succ, Finset.filter_insert]
    by_cases hp : p m
    · rw [if_pos hp]
      have hm : m ∉ (Finset.range m).filter p := by
        intro hmem
        exact absurd (Finset.mem_range.mp (Finset.mem_filter.mp hmem).1)
          (lt_irrefl m)
      rw [Finset.card_insert_of_not_mem hm]
      have h1 : (List.filter (fun i => decide (p i)) [m]).length = 1 := by
        simp [hp]
      omega
    · rw [if_neg hp]
      have h1 : (List.filter (fun i => decide (p i)) [m]).length = 0 := by
        simp [hp]
      omega

/-- Summing, over the columns, the number of removed cells in that column gives
the total number of removed cells (they all lie in the `size × size` board). -/
theorem removed_card_fiber {size : Nat} (st : RState)
    (hbnd : ∀ p ∈ st.removed, p.1 < size ∧ p.2 < size) :
    ∑ j ∈ Finset.range size,
        ((Finset.range size).filter (fun i => (i, j) ∈ st.removed)).card
      = st.removed.card := by
  classical
  rw [@Finset.card_eq_sum_card_fiberwise (Nat × Nat) Nat _ (fun p => p.2)
    st.removed (Finset.range size)
    (fun x hx => Finset.mem_range.mpr (hbnd x hx).2)]
  apply Finset.sum_congr rfl
  intro j hj
  have himg : ((Finset.range size).filter
      (fun i => (i, j) ∈ st.removed)).image (fun i => (i, j)) =
      st.removed.filter (fun p => p.2 = j) := by
    ext q
    simp only [Finset.mem_filter, Finset.mem_image, Finset.mem_range]
    constructor
    · rintro ⟨i, ⟨hi, hmem⟩, rfl⟩
      exact ⟨hmem, rfl⟩
    · rintro ⟨hq, hq2⟩
      refine ⟨q.1, ⟨(hbnd q hq).1, ?_⟩, ?_⟩
      · obtain ⟨q1, q2⟩ := q
        dsimp only at hq2
        subst hq2
        exact hq
      · obtain ⟨q1, q2⟩ := q
        dsimp only at hq2
        subst hq2
        rfl
  have hinj : Function.Injective (fun i => ((i, j) : Nat × Nat)) := by
    intro a b h
    injection h with h1 h2
  rw [← himg, Finset.card_image_of_injective _ hinj]

/-- Initial step-4 accounting: the sorted per-column pools together hold every
board cell that is not yet removed, so pool size plus removed count is
`size * size`. -/
theorem pool_plus_removed {boxDims : BoxDimensions} {size : Nat} (st : RState)
    (hbnd : ∀ p ∈ st.removed, p.1 < size ∧ p.2 < size) :
    ((List.range size).map
        (fun j => ((step4InitPBC boxDims size st j).insertionSort pos4LE).length)).sum
      + st.removed.card = size * size := by
  classical
  have hlen : ∀ j : Nat,
      ((step4InitPBC boxDims size st j).insertionSort pos4LE).length =
        ((Finset.range size).filter (fun i => (i, j) ∉ st.removed)).card := by
    intro j
    rw [(List.perm_insertionSort pos4LE _).length_eq]
    unfold step4InitPBC
    rw [List.length_map]
    exact length_filter_range _
  rw [sum_map_range, ← removed_card_fiber st hbnd, ← Finset.sum_add_distrib]
  have h1 : ∀ j ∈ Finset.range size,
      ((step4InitPBC boxDims size st j).insertionSort pos4LE).length
        + ((Finset.range size).filter (fun i => (i, j) ∈ st.removed)).card
        = size := by
    intro j hj
    rw [hlen j]
    have h2 := @Finset.filter_card_add_filter_neg_card_eq_card Nat
      (Finset.range size) (fun i => (i, j) ∈ st.removed) _ _
    rw [Finset.card_range] at h2
    omega
  rw [Finset.sum_congr rfl h1, Finset.sum_const, Finset.card_range, smul_eq_mul]

/-- The state entering the step-4 while loop satisfies the accounting
invariant, with `R0` the removals of steps 1–3 and `P0` the initial pool
size. -/
theorem S4inv_init {boxDims : BoxDimensions} {size goal : Nat} (st : RState) :
    S4inv size goal st.removed.card
      (((List.range size).map
        (fun j => ((step4InitPBC boxDims size st j).insertionSort pos4LE).length)).sum)
      ⟨st, fun j => (step4InitPBC boxDims size st j).insertionSort pos4LE,
        (List.range size).insertionSort (colOrderLE st), 0⟩ := by
  refine ⟨?_, ?_, ?_, ?_, ?_, Nat.zero_le _⟩
  · intro j hj
    show ((step4InitPBC boxDims size st j).insertionSort pos4LE).Pairwise _
    rw [List.Perm.pairwise_iff (fun h => Ne.symm h)
      (List.perm_insertionSort pos4LE _)]
    unfold step4InitPBC
    apply List.Pairwise.map
    · exact fun a b h => h
    · exact List.Pairwise.filter _
        ((List.pairwise_lt_range size).imp (fun h => Nat.ne_of_lt h))
  · intro j hj e he
    have he2 : e ∈ step4InitPBC boxDims size st j :=
      (List.perm_insertionSort pos4LE _).mem_iff.mp he
    unfold step4InitPBC at he2
    rw [List.mem_map] at he2
    obtain ⟨i, hi, rfl⟩ := he2
    rw [List.mem_filter, List.mem_range] at hi
    exact ⟨hi.1, rfl, of_decide_eq_true hi.2⟩
  · exact List.perm_insertionSort _ _
  · exact (Nat.add_zero _).symm
  · exact Nat.add_zero _

/-- Step 4 removes exactly enough cells to reach the target when the target is
within the board size: the resulting removed-cell count is
`max target (cells removed by steps 1–3)`. -/
theorem step4_card {boxDims : BoxDimensions} {size target : Nat} (hsz : 0 < size)
    (st : RState) (hbnd : ∀ p ∈ st.removed, p.1 < size ∧ p.2 < size)
    (htarget : target ≤ size * size) :
    (step4 boxDims size target st).removed.card = max target st.removed.card := by
  unfold step4
  dsimp only
  split
  · rename_i hadd
    set P0 := ((List.range size).map
      (fun j => ((step4InitPBC boxDims size st j).insertionSort pos4LE).length)).sum
      with hP0
    have hpool : P0 + st.removed.card = size * size := pool_plus_removed st hbnd
    have hinit := @S4inv_init boxDims size
      (min (target - st.removed.card) P0) st
    obtain ⟨hinvr, hrc⟩ := step4While_spec hsz
      (min (target - st.removed.card) P0 + 1) _ hinit
      (by show _ ≤ 0 + _; omega)
    have hpc : poolCount size
        (⟨st, fun j => (step4InitPBC boxDims size st j).insertionSort pos4LE,
          (List.range size).insertionSort (colOrderLE st), 0⟩ : S4) = P0 := rfl
    rw [hpc] at hrc
    have hrc2 : (step4While boxDims size (min (target - st.removed.card) P0)
        (min (target - st.removed.card) P0 + 1)
        ⟨st, fun j => (step4InitPBC boxDims size st j).insertionSort pos4LE,
          (List.range size).insertionSort (colOrderLE st), 0⟩).removedCount =
        min (target - st.removed.card) P0 := by
      rw [hrc]
      show _ ⊓ (0 + _) = _
      omega
    unfold step4Fallback
    rw [if_neg (by omega)]
    have hcard := hinvr.2.2.2.1
    rw [hcard]
    omega
  · rename_i hadd
    omega

/-- The state after the three coverage phases (steps 1–3) of `createPuzzle`,
before the quota phase (step 4). -/
def coverageState (boxDims : BoxDimensions) (size : Nat) (st : RState)
    (rng : Rng) : RState × Rng :=
  let (st1, rng1) := step1 boxDims size st rng
  let (st2, rng2) := step2 boxDims size st1 rng1
  step3 boxDims size st2 rng2

theorem removalRun_fst {boxDims : BoxDimensions} {size target : Nat}
    (st : RState) (rng : Rng) :
    (removalRun boxDims size target st rng).1 =
      step4 boxDims size target (coverageState boxDims size st rng).1 := rfl

theorem reach_coverageState {boxDims size} (st : RState) (rng : Rng)
    (hbd : getBoxDimensions size = .ok boxDims) :
    Reach boxDims size st (coverageState boxDims size st rng).1 := by
  unfold coverageState
  dsimp only
  exact ((reach_step1 st rng).trans (reach_step2 _ _)).trans (reach_step3 _ _ hbd)

/-- Every removed cell of a reachable state lies on the board. -/
theorem reach_removed_bounds {boxDims size} {grid : Grid} {st : RState}
    (h : Reach boxDims size (initState grid) st) :
    ∀ p ∈ st.removed, p.1 < size ∧ p.2 < size := by
  apply reach_preserves
    (P := fun st => ∀ p ∈ st.removed, p.1 < size ∧ p.2 < size) ?_ h ?_
  · intro s r c hr hc hs p hp
    unfold removeCell at hp
    revert hp
    split
    · exact hs p
    · intro hp
      dsimp only at hp
      rw [Finset.mem_insert] at hp
      rcases hp with rfl | hp
      · exact ⟨hr, hc⟩
      · exact hs p hp
  · intro p hp
    simp [initState] at hp

/-- On a complete input grid, the zeros of a reachable state's puzzle are
exactly its removed cells. -/
theorem zeroCount_eq_card {boxDims size} {grid : Grid} {st : RState}
    (h : Reach boxDims size (initState grid) st)
    (hcomplete : ∀ r, r < size → ∀ c, c < size → grid r c ≠ 0) :
    zeroCount st.puzzle size = st.removed.card := by
  unfold zeroCount
  have hbnd := reach_removed_bounds h
  have hpz := (reach_puzzle_eq h).2
  have hfe : (Finset.range size ×ˢ Finset.range size).filter
      (fun p => st.puzzle p.1 p.2 = 0) = st.removed := by
    ext q
    rw [Finset.mem_filter, Finset.mem_product, Finset.mem_range, Finset.mem_range]
    constructor
    · rintro ⟨⟨h1, h2⟩, hz⟩
      rw [hpz q.1 q.2] at hz
      by_cases hq : (q.1, q.2) ∈ st.removed
      · rwa [Prod.mk.eta] at hq
      · rw [if_neg hq] at hz
        exact absurd hz (hcomplete q.1 h1 q.2 h2)
    · intro hq
      obtain ⟨hb1, hb2⟩ := hbnd q hq
      refine ⟨⟨hb1, hb2⟩, ?_⟩
      rw [hpz q.1 q.2, if_pos (by rwa [Prod.mk.eta])]
  rw [hfe]

/-- The removal target never exceeds the number of cells. -/
theorem target_le {size : Nat} (d : Difficulty) :
    targetCellsToRemove (size * size) d ≤ size * size := by
  cases d <;> simp only [targetCellsToRemove, percent] <;> omega

/-- On the supported sizes the integer removal target agrees with the exact
rational floor `⌊N² · (1 − fillFraction)⌋` of the specification. -/
theorem target_eq_floor {size : Nat} {bd : BoxDimensions}
    (hbd : getBoxDimensions size = .ok bd) (d : Difficulty) :
    (targetCellsToRemove (size * size) d : ℤ) =
      ⌊((size * size : Nat) : ℚ) * (1 - fillFraction d)⌋ := by
  rcases getBoxDimensions_cases hbd with ⟨h, -⟩ | ⟨h, -⟩ | ⟨h, -⟩ <;> subst h <;>
    cases d <;>
    · symm
      rw [Int.floor_eq_iff]
      constructor <;> norm_num [targetCellsToRemove, percent, fillFraction]

/-- C3 amended: on a complete grid of a supported size, the zero count of the
puzzle `createPuzzle` returns equals `max target R`, where
`target = ⌊N² · (1 − fillFraction(difficulty))⌋` (the first conjunct checks
this floor reading of the integer target) and `R` is the number of cells the
coverage phases (steps 1–3) removed: the count is at least the target, and
exactly the target whenever steps 1–3 removed at most `target` cells — the
claimed unconditional equality with the floor fails. -/
theorem createPuzzle_zeroCount_eq_max (grid : Grid) {size : Nat} (d : Difficulty)
    (rng : Rng) {bd : BoxDimensions} (hbd : getBoxDimensions size = .ok bd)
    (hcomplete : ∀ r, r < size → ∀ c, c < size → grid r c ≠ 0) :
    (targetCellsToRemove (size * size) d : ℤ) =
      ⌊((size * size : Nat) : ℚ) * (1 - fillFraction d)⌋ ∧
    ∀ p rng2, createPuzzle grid size d rng = .ok (p, rng2) →
      zeroCount p size =
        max (targetCellsToRemove (size * size) d)
          (coverageState bd size (initState grid) rng).1.removed.card := by
  refine ⟨target_eq_floor hbd d, ?_⟩
  intro p rng2 hok
  rw [createPuzzle_eq_run grid d rng hbd] at hok
  rw [Except.ok.injEq, Prod.mk.injEq] at hok
  obtain ⟨hp, -⟩ := hok
  subst hp
  have hsz : 0 < size := by
    rcases getBoxDimensions_cases hbd with ⟨h, -⟩ | ⟨h, -⟩ | ⟨h, -⟩ <;> omega
  have hreach3 := reach_coverageState (initState grid) rng hbd
  have hbnd := reach_removed_bounds hreach3
  have hreach4 := @reach_removalRun bd size (targetCellsToRemove (size * size) d)
    (initState grid) rng hbd
  have hzc := zeroCount_eq_card hreach4 hcomplete
  rw [removalRun_fst] at hzc ⊢
  rw [hzc]
  exact step4_card hsz _ hbnd (target_le d)

/-- Witness for the amended C3 statement at a concrete input. -/
theorem createPuzzle_zeroCount_eq_max_witness :
    (∀ r, r < 4 → ∀ c, c < 4 → sampleGrid4 r c ≠ 0) ∧
    ((targetCellsToRemove (4 * 4) .easy : ℤ) =
        ⌊((4 * 4 : Nat) : ℚ) * (1 - fillFraction .easy)⌋ ∧
      ∀ p rng2, createPuzzle sampleGrid4 4 .easy [1, 2, 1, 0, 2, 0] = .ok (p, rng2) →
        zeroCount p 4 =
          max (targetCellsToRemove (4 * 4) .easy)
            (coverageState ⟨2, 2⟩ 4 (initState sampleGrid4)
              [1, 2, 1, 0, 2, 0]).1.removed.card) :=
  ⟨by decide,
    @createPuzzle_zeroCount_eq_max sampleGrid4 4 .easy [1, 2, 1, 0, 2, 0] ⟨2, 2⟩
      (by rfl) (by decide)⟩

end SudokuGen
